import Mathlib

/-!
Verification development for the media retention engine
(`src/service/media/retention.rs` and `src/service/media/mod.rs`).

The durable `media_retention` column family is modelled as an association
list from byte-string keys (`List Char`) to decoded record values.  The
key-value primitives (point get, point put, point delete, prefix scan,
atomic batched multi-put + multi-delete) are modelled from the spec's
description of the Retention Index (the `tuwunel_database::Map` adapter is
not part of the sources under review); the retention logic itself is
translated directly from the Rust sources.
-/

namespace Retention

/-- Database keys are byte strings; we model bytes as characters. -/
abbrev Key := List Char

/-- Largest `i64` value, for Rust's `i64::saturating_add`. -/
def i64Max : Int := 2 ^ 63 - 1

/-- Smallest `i64` value, for Rust's `i64::saturating_sub`. -/
def i64Min : Int := -(2 ^ 63)

/-- Rust `x.saturating_add(1)` on `i64`. -/
def satAdd1 (x : Int) : Int := min (x + 1) i64Max

/-- Rust `x.saturating_sub(1)` on `i64`. -/
def satSub1 (x : Int) : Int := max (x - 1) i64Min

/-- `UserRetentionPrefs` (retention.rs lines 24-33). -/
structure UserRetentionPrefs where
  auto_delete_unencrypted : Bool
  auto_delete_encrypted : Bool
deriving DecidableEq, Repr

/-- `UserRetentionPrefs::default()`: both flags false. -/
def prefsDefault : UserRetentionPrefs := ⟨false, false⟩

/-- `PendingUpload` (retention.rs lines 35-40); `upload_ts` in milliseconds. -/
structure PendingUpload where
  mxc : String
  user_id : String
  upload_ts : Nat
deriving DecidableEq, Repr

/-- `MediaRef` (retention.rs lines 42-48); `loc` models the Rust field
`local` (a reserved word in Lean). -/
structure MediaRef where
  refcount : Int
  loc : Bool
  first_seen_ts : Nat
  last_seen_ts : Nat
deriving DecidableEq, Repr

/-- `MediaEventRef` (retention.rs lines 50-57). -/
structure MediaEventRef where
  mxc : String
  room_id : String
  kind : String
  sender : Option String
deriving DecidableEq, Repr

/-- `DeletionCandidate` (retention.rs lines 59-84). -/
structure DeletionCandidate where
  mxc : String
  enqueued_ts : Nat
  user_id : Option String
  awaiting_confirmation : Bool
  notification_event_id : Option String
  confirm_reaction_id : Option String
  cancel_reaction_id : Option String
  auto_reaction_id : Option String
  from_encrypted_room : Bool
deriving DecidableEq, Repr

/-- `RetentionPolicy` (retention.rs lines 86-91). -/
inductive RetentionPolicy where
  | Keep
  | AskSender
  | DeleteAlways
deriving DecidableEq, Repr

/-- `RetentionPolicy::from_str` (retention.rs lines 93-101). -/
def RetentionPolicy.from_str (s : String) : RetentionPolicy :=
  match s with
  | "ask_sender" => .AskSender
  | "delete_always" => .DeleteAlways
  | _ => .Keep

/-- A decoded value stored in the `media_retention` column family.  Reading
a key and deserializing it as record type `T` succeeds exactly when the
stored value is the `T` constructor; `corrupt` stands for bytes that
deserialize as no record at all. -/
inductive Val where
  | mref (m : MediaRef)
  | mer (m : MediaEventRef)
  | cand (c : DeletionCandidate)
  | pend (p : PendingUpload)
  | prefs (p : UserRetentionPrefs)
  | corrupt
deriving DecidableEq, Repr

/-- Modelled from the spec: the Retention Index (§4.2), a single logical
key-value namespace.  An association list of key/value entries; the
engine keeps at most one entry per key. -/
abbrev Store := List (Key × Val)

/-- Modelled from the spec: point get (`Map::get` / `get_blocking`);
returns the first entry with the key. -/
def sget : Store → Key → Option Val
  | [], _ => none
  | (k', v) :: rest, k => if k' = k then some v else sget rest k

/-- Modelled from the spec: point delete (`Map::remove` /
`WriteBatch::delete_cf`); removes every entry with the key. -/
def sdel : Store → Key → Store
  | [], _ => []
  | (k', v) :: rest, k => if k' = k then sdel rest k else (k', v) :: sdel rest k

/-- Modelled from the spec: point put (`Map::raw_put` /
`WriteBatch::put_cf`); overwrites any existing entry with the key. -/
def sput (s : Store) (k : Key) (v : Val) : Store := sdel s k ++ [(k, v)]

/-- The well-formedness the engine maintains: one entry per key. -/
def keysNodup (s : Store) : Prop := (s.map Prod.fst).Nodup

/-- Modelled from the spec: prefix scan (`Map::stream_raw_prefix`); yields
the entries whose key extends the prefix, in store order. -/
def scanPref (s : Store) (p : Key) : Store := s.filter (fun kv => p.isPrefixOf kv.1)

/-- The value the last put for key `k` in the batch carries, if any. -/
def lastPut : List (Key × Val) → Key → Option Val
  | [], _ => none
  | (k', v) :: rest, k =>
      match lastPut rest k with
      | some w => some w
      | none => if k' = k then some v else none

/-- `Map::write_batch_raw` (database/map/insert.rs lines 66-91): all puts
in order, then all deletes, applied atomically. -/
def applyBatch (s : Store) (puts : List (Key × Val)) (dels : List Key) : Store :=
  dels.foldl sdel (puts.foldl (fun t kv => sput t kv.1 kv.2) s)

/-- Keyspace tag `K_MREF = "mref:"` (retention.rs line 18). -/
def K_MREF : Key := ['m', 'r', 'e', 'f', ':']

/-- Keyspace tag `K_MER = "mer:"` (retention.rs line 19). -/
def K_MER : Key := ['m', 'e', 'r', ':']

/-- Keyspace tag `K_QUEUE = "qdel:"` (retention.rs line 20). -/
def K_QUEUE : Key := ['q', 'd', 'e', 'l', ':']

/-- Keyspace tag `K_PENDING = "pending:"` (retention.rs line 21). -/
def K_PENDING : Key := ['p', 'e', 'n', 'd', 'i', 'n', 'g', ':']

/-- Keyspace tag `K_PREFS = "prefs:"` (retention.rs line 22). -/
def K_PREFS : Key := ['p', 'r', 'e', 'f', 's', ':']

/-- `Retention::key_mref` (retention.rs line 114). -/
def kMref (mxc : String) : Key := K_MREF ++ mxc.data

/-- `Retention::key_mer` (retention.rs line 117): `mer:<event_id>:<kind>`. -/
def kMer (event_id kind : String) : Key := K_MER ++ event_id.data ++ ':' :: kind.data

/-- The prefix `mer:<event_id>:` scanned by the redaction decrement
(retention.rs line 264). -/
def merPre (event_id : String) : Key := K_MER ++ event_id.data ++ [':']

/-- `Retention::key_queue` (retention.rs line 120). -/
def kQueue (mxc : String) : Key := K_QUEUE ++ mxc.data

/-- `Retention::key_pending` (retention.rs lines 123-125). -/
def kPending (user_id : String) (timestamp_ms : Nat) : Key :=
  K_PENDING ++ user_id.data ++ ':' :: (toString timestamp_ms).data

/-- `Retention::pending_prefix` (retention.rs line 128): `pending:<user_id>:`. -/
def pendingPre (user_id : String) : Key := K_PENDING ++ user_id.data ++ [':']

/-- `Retention::key_prefs` (retention.rs line 131). -/
def kPrefs (user_id : String) : Key := K_PREFS ++ user_id.data

/-- `Retention::get_user_prefs` (retention.rs lines 134-146): a missing
key and a value that fails to deserialize both yield the default. -/
def get_user_prefs (s : Store) (user_id : String) : UserRetentionPrefs :=
  match sget s (kPrefs user_id) with
  | some (.prefs p) => p
  | _ => prefsDefault

/-- `Retention::set_user_prefs` (retention.rs lines 149-153). -/
def set_user_prefs (s : Store) (user_id : String) (p : UserRetentionPrefs) : Store :=
  sput s (kPrefs user_id) (.prefs p)

/-- The `MediaRef` value written for one ref occurrence by the insert path
(retention.rs lines 223-250): the blocking get reads the pre-batch store,
an existing decodable row is incremented with `saturating_add`, anything
else (absent or undecodable) is created fresh with refcount 1. -/
def newMref (s : Store) (mxc : String) (loc : Bool) (now : Nat) : MediaRef :=
  match sget s (kMref mxc) with
  | some (.mref v) => ⟨satAdd1 v.refcount, v.loc, v.first_seen_ts, now⟩
  | _ => ⟨1, loc, now, now⟩

/-- The batched puts built by `insert_mxcs_on_event` (retention.rs lines
208-251): per ref, a `mer:` row then an `mref:` row, every read served
from the pre-batch store. -/
def insertPuts (s : Store) (event_id room_id sender : String) (now : Nat) :
    List (String × Bool × String) → List (Key × Val)
  | [] => []
  | (mxc, loc, kind) :: rest =>
      (kMer event_id kind, Val.mer ⟨mxc, room_id, kind, some sender⟩) ::
      (kMref mxc, Val.mref (newMref s mxc loc now)) ::
      insertPuts s event_id room_id sender now rest

/-- `Retention::insert_mxcs_on_event` (retention.rs lines 191-253). -/
def insert_mxcs_on_event (event_id room_id sender : String)
    (mxcs : List (String × Bool × String)) (now : Nat) (s : Store) : Store :=
  if mxcs.isEmpty then s
  else applyBatch s (insertPuts s event_id room_id sender now mxcs) []

/-- The queueing test of the decrement path (retention.rs lines 284-288),
evaluated on the already-decremented `MediaRef`. -/
def shouldQueue (policy : RetentionPolicy) (mr : MediaRef) : Bool :=
  match policy with
  | .Keep => false
  | .AskSender => mr.refcount == 0
  | .DeleteAlways => mr.loc

/-- The streaming loop of `decrement_refcount_on_redaction` (retention.rs
lines 271-300): builds the redaction candidates, the batched `mref:` puts
and the batched `mer:` deletes.  A row that fails to deserialize, or an
`mref:` value that fails to deserialize, aborts the whole call with an
error (the `?` operator), before anything is written. -/
def decLoop (s : Store) (policy : RetentionPolicy) (now : Nat) :
    List (Key × Val) →
    Except Unit (List (String × String × Option String) × List (Key × Val) × List Key)
  | [] => .ok ([], [], [])
  | (k, v) :: rest =>
      match v with
      | .mer mer =>
          match sget s (kMref mer.mxc) with
          | some w =>
              match w with
              | .mref mr =>
                  let mr2 : MediaRef := ⟨satSub1 mr.refcount, mr.loc, mr.first_seen_ts, now⟩
                  match decLoop s policy now rest with
                  | .error e => .error e
                  | .ok (td, puts, dels) =>
                      .ok ((if shouldQueue policy mr2 then
                              [(mer.mxc, mer.room_id, mer.sender)] else []) ++ td,
                           (kMref mer.mxc, Val.mref mr2) :: puts,
                           k :: dels)
              | _ => .error ()
          | none =>
              match decLoop s policy now rest with
              | .error e => .error e
              | .ok (td, puts, dels) => .ok (td, puts, k :: dels)
      | _ => .error ()

/-- `Retention::decrement_refcount_on_redaction` (retention.rs lines
258-307): scans `mer:<event_id>:`, then commits one batch; on error the
batch is never written. -/
def decrement_refcount_on_redaction (event_id : String) (policy : RetentionPolicy)
    (now : Nat) (s : Store) :
    Except Unit (List (String × String × Option String) × Store) :=
  match decLoop s policy now (scanPref s (merPre event_id)) with
  | .error e => .error e
  | .ok (td, puts, dels) => .ok (td, applyBatch s puts dels)

/-- The 60 000 ms pending-upload window (retention.rs line 345). -/
def windowMs : Nat := 60000

/-- The streaming loop of `consume_pending_uploads` (retention.rs lines
356-376).  A row that fails to deserialize ends the stream (`.ok().flatten()`
turns the error item into `None`), keeping what was accumulated so far. -/
def consumeLoop (cutoff event_ts : Nat) :
    List (Key × Val) → List (String × Bool × String) × List Key
  | [] => ([], [])
  | (k, .pend p) :: rest =>
      if cutoff ≤ p.upload_ts ∧ p.upload_ts ≤ event_ts then
        let r := consumeLoop cutoff event_ts rest
        ((p.mxc, true, "encrypted.media") :: r.1, k :: r.2)
      else if p.upload_ts < cutoff then
        let r := consumeLoop cutoff event_ts rest
        (r.1, k :: r.2)
      else
        consumeLoop cutoff event_ts rest
  | _ :: _ => ([], [])

/-- `Retention::consume_pending_uploads` (retention.rs lines 340-385);
`event_ts - windowMs` is `u64::saturating_sub`, which Nat subtraction
models exactly. -/
def consume_pending_uploads (user_id : String) (event_ts : Nat) (s : Store) :
    List (String × Bool × String) × Store :=
  let cutoff := event_ts - windowMs
  let r := consumeLoop cutoff event_ts (scanPref s (pendingPre user_id))
  (r.1, applyBatch s [] r.2)

/-- `Retention::queue_media_for_deletion` (retention.rs lines 417-449):
one point put at `qdel:<mxc>` with a fresh `enqueued_ts`. -/
def queue_media_for_deletion (mxc : String) (owner : Option String)
    (awaiting_confirmation : Bool)
    (notification_event_id confirm_reaction_id cancel_reaction_id
      auto_reaction_id : Option String)
    (from_encrypted_room : Bool) (now : Nat) (s : Store) : Store :=
  sput s (kQueue mxc)
    (.cand ⟨mxc, now, owner, awaiting_confirmation, notification_event_id,
            confirm_reaction_id, cancel_reaction_id, auto_reaction_id,
            from_encrypted_room⟩)

/-- The on-disk blob store: a finite map from file paths to file sizes. -/
abbrev FS := List (String × Nat)

/-- Size of the file at `path`, if present (`std::fs::metadata`). -/
def fsLookup : FS → String → Option Nat
  | [], _ => none
  | (p, n) :: rest, q => if p = q then some n else fsLookup rest q

/-- Remove the file at `path` (`std::fs::remove_file`). -/
def fsErase : FS → String → FS
  | [], _ => []
  | (p, n) :: rest, q => if p = q then fsErase rest q else (p, n) :: fsErase rest q

/-- `remove_file_tolerant` (retention.rs lines 670-684): a missing file
contributes 0 bytes and no error; an existing file is removed and its
size returned.  (The branch where `remove_file` itself fails also returns
0; in this model removing an existing file always succeeds.) -/
def remove_file_tolerant (fs : FS) (path : String) : Nat × FS :=
  match fsLookup fs path with
  | some len => (len, fsErase fs path)
  | none => (0, fs)

/-- Models the external `ruma::Mxc` parse used by `delete_local_media`
(retention.rs lines 641-643): the identifier must read
`mxc://<server>/<media-id>` with both parts nonempty. -/
def parseMxc (s : String) : Option (List Char × List Char) :=
  if ['m', 'x', 'c', ':', '/', '/'].isPrefixOf s.data then
    let rest := s.data.drop 6
    let server := rest.takeWhile (fun c => !(c == '/'))
    let media := rest.drop (server.length + 1)
    if server.length + 1 ≤ rest.length ∧ server ≠ [] ∧ media ≠ [] then
      some (server, media)
    else none
  else none

/-- Modelled from the spec: the service environment of the delete
subroutine (§4.8).  `metaKeys` stands for
`Data::search_mxc_metadata_prefix` (the blob metadata index, whose code is
not among the sources under review); `hashedPath` and `legacyPath` stand
for `Service::get_media_file` (SHA-256 path, mod.rs lines 1030-1039) and
`Service::get_media_file_b64` (legacy path, mod.rs lines 1045-1050). -/
structure SvcEnv where
  metaKeys : String → List String
  hashedPath : String → String
  legacyPath : String → String

/-- Combined durable state: the retention index and the blob store. -/
structure MState where
  store : Store
  fs : FS
deriving DecidableEq, Repr

/-- Error kinds surfaced by the candidate operations (§7). -/
inductive RErr where
  | NotFound
  | Forbidden
  | InvalidParam
  | BadJson
  | Deser
deriving DecidableEq, Repr

/-- One storage key of `delete_local_media`'s loop (retention.rs lines
652-657): remove the hashed path, then the legacy path, summing freed
bytes (`u64::saturating_add`, which Nat addition models for all
realistic totals). -/
def deleteKeyStep (env : SvcEnv) (acc : Nat × FS) (key : String) : Nat × FS :=
  let r1 := remove_file_tolerant acc.2 (env.hashedPath key)
  let r2 := remove_file_tolerant r1.2 (env.legacyPath key)
  (acc.1 + r1.1 + r2.1, r2.2)

/-- `Retention::delete_local_media` (retention.rs lines 638-660): parse
the mxc (else `BadJson`), collect the storage keys from the metadata
index (errors there yield the empty list, `unwrap_or_default`), and
tolerantly remove both paths of every key.  The metadata index itself is
not modified. -/
def delete_local_media (env : SvcEnv) (mxc : String) (st : MState) :
    Except RErr Nat × MState :=
  match parseMxc mxc with
  | none => (.error .BadJson, st)
  | some _ =>
      let r := (env.metaKeys mxc).foldl (deleteKeyStep env) (0, st.fs)
      (.ok r.1, ⟨st.store, r.2⟩)

/-- `Retention::confirm_candidate` (retention.rs lines 477-517): look up
the `qdel:` row, check the recorded owner, then delete the blob and batch-
delete the `qdel:` and `mref:` rows.  (The local mutation of the candidate
at lines 504-505 is never persisted.) -/
def confirm_candidate (env : SvcEnv) (mxc requester : String) (st : MState) :
    Except RErr (Nat × Option String) × MState :=
  match sget st.store (kQueue mxc) with
  | none => (.error .NotFound, st)
  | some (.cand c) =>
      match c.user_id with
      | none => (.error .Forbidden, st)
      | some owner =>
          if owner ≠ requester then (.error .Forbidden, st)
          else if c.awaiting_confirmation = false then (.error .InvalidParam, st)
          else
            match delete_local_media env mxc st with
            | (.error e, st2) => (.error e, st2)
            | (.ok n, st2) =>
                (.ok (n, c.cancel_reaction_id),
                 ⟨applyBatch st2.store [] [kQueue mxc, kMref mxc], st2.fs⟩)
  | some _ => (.error .Deser, st)

/-- `Retention::cancel_candidate` (retention.rs lines 543-576): look up
the `qdel:` row, check the recorded owner, then point-delete only the
candidate row. -/
def cancel_candidate (mxc requester : String) (st : MState) :
    Except RErr (Option String) × MState :=
  match sget st.store (kQueue mxc) with
  | none => (.error .NotFound, st)
  | some (.cand c) =>
      match c.user_id with
      | none => (.error .Forbidden, st)
      | some owner =>
          if owner ≠ requester then (.error .Forbidden, st)
          else (.ok c.confirm_reaction_id, ⟨sdel st.store (kQueue mxc), st.fs⟩)
  | some _ => (.error .Deser, st)

/-- `Retention::auto_delete_candidate` (retention.rs lines 581-636): after
the owner check, set the matching auto-delete flag (persisted before the
blob delete), then delete the blob and batch-delete the `qdel:` and
`mref:` rows. -/
def auto_delete_candidate (env : SvcEnv) (mxc requester : String) (st : MState) :
    Except RErr (Nat × Option String × Option String × Bool) × MState :=
  match sget st.store (kQueue mxc) with
  | none => (.error .NotFound, st)
  | some (.cand c) =>
      match c.user_id with
      | none => (.error .Forbidden, st)
      | some owner =>
          if owner ≠ requester then (.error .Forbidden, st)
          else
            let pr := get_user_prefs st.store requester
            let pr2 := if c.from_encrypted_room then
                { pr with auto_delete_encrypted := true }
              else
                { pr with auto_delete_unencrypted := true }
            let st1 : MState := ⟨set_user_prefs st.store requester pr2, st.fs⟩
            match delete_local_media env mxc st1 with
            | (.error e, st2) => (.error e, st2)
            | (.ok n, st2) =>
                (.ok (n, c.confirm_reaction_id, c.cancel_reaction_id,
                      c.from_encrypted_room),
                 ⟨applyBatch st2.store [] [kQueue mxc, kMref mxc], st2.fs⟩)
  | some _ => (.error .Deser, st)

/-- `UserRetentionPreference` (mod.rs lines 54-59). -/
inductive UserRetentionPreference where
  | Ask
  | Delete
  | Keep
deriving DecidableEq, Repr

/-- `CandidateAction` (mod.rs lines 61-66). -/
inductive CandidateAction where
  | DeleteImmediately
  | AwaitConfirmation
  | Skip
deriving DecidableEq, Repr

/-- `RetentionCandidate` (mod.rs lines 68-74). -/
structure RetentionCandidate where
  mxc : String
  room_id : Option String
  sender : Option String
  from_encrypted_room : Bool
deriving DecidableEq, Repr

/-- `CandidateDecision` (mod.rs lines 76-80). -/
structure CandidateDecision where
  action : CandidateAction
  owner : Option String
deriving DecidableEq, Repr

/-- The fields of the redacted event's JSON that the candidate processing
reads: its `sender` and `origin_server_ts`. -/
structure EventInfo where
  sender : Option String
  origin_server_ts : Option Nat
deriving DecidableEq, Repr

/-- The external collaborators consulted while processing one redaction
candidate (mod.rs): locality of a user (`globals.user_is_local`), the
uploader reverse lookup (`db.get_media_owner`), the resolved account-data
retention preference (`user_retention_preference`), and the user-room
interface (`userroom.send_text_with_event_id` / `add_reaction`, where
`none` models a failed send). -/
structure Env where
  user_is_local : String → Bool
  media_owner : String → Option String
  user_pref : String → UserRetentionPreference
  send_text : String → String → Option String
  add_reaction : String → String → String → Option String

/-- Models the external `ruma::UserId` parse (`OwnedUserId::try_from` /
`UserId::parse`): user identifiers begin with `@`. -/
def parseUserId (s : String) : Option String :=
  if s.data.head? = some '@' then some s else none

/-- `Service::evaluate_retention_candidate` (mod.rs lines 422-496).
The source matches the non-`Keep` policies under their alternate variant
names (`DeleteIfUnreferenced` / `ForceDeleteLocal`); they map to the
`AskSender` / `DeleteAlways` variants of the enum in retention.rs. -/
def evaluate_retention_candidate (env : Env) (policy : RetentionPolicy)
    (einfo : Option EventInfo) (cand : RetentionCandidate) : CandidateDecision :=
  if policy = .Keep then ⟨.Skip, none⟩
  else
    let o1 := cand.sender.bind parseUserId
    let o2 := match o1 with
      | some o => some o
      | none => env.media_owner cand.mxc
    let owner := match o2 with
      | some o => some o
      | none => (einfo.bind (·.sender)).bind parseUserId
    match owner with
    | some oid =>
        if env.user_is_local oid = false then
          ⟨(match policy with | .Keep => .Skip | _ => .DeleteImmediately), some oid⟩
        else
          match env.user_pref oid with
          | .Delete => ⟨.DeleteImmediately, some oid⟩
          | .Keep => ⟨.Skip, some oid⟩
          | .Ask => ⟨.AwaitConfirmation, some oid⟩
    | none =>
        ⟨(match policy with | .Keep => .Skip | _ => .DeleteImmediately), none⟩

/-- `Service::build_retention_notice` (mod.rs lines 498-536). -/
def build_retention_notice (cand : RetentionCandidate) (einfo : Option EventInfo) :
    String :=
  let room_segment := match cand.room_id with
    | some room => " in room " ++ room
    | none => ""
  let timestamp := match einfo.bind (·.origin_server_ts) with
    | some ts => " at " ++ toString ts
    | none => ""
  let encryption_warning := if cand.from_encrypted_room then
      "\n\n⚠️ WARNING: This media was detected from an encrypted room based on upload timing. Detection may have false positives since the server cannot read encrypted messages. Use auto-delete at your own risk."
    else ""
  let room_type := if cand.from_encrypted_room then "encrypted rooms"
    else "unencrypted rooms"
  "A piece of media (" ++ cand.mxc ++ ") you uploaded" ++ room_segment ++
    timestamp ++ " is pending deletion." ++ encryption_warning ++
    "\n\nReact with:\n✅ to confirm deletion\n❌ to keep it\n⚙️ to always auto-delete media in " ++
    room_type ++ "\n\n(You can also run `!user retention confirm " ++ cand.mxc ++
    "` to delete it manually.)"

/-- The per-candidate body of `Service::retention_decrement_on_redaction`
(mod.rs lines 251-419): consult the sender's auto-delete flag matching
`from_encrypted_room`; if set, enqueue a candidate with
`awaiting_confirmation = false` and `continue`; otherwise evaluate the
candidate and dispatch on the decision.  The blob store is never touched
here (deletion is left to the reclamation worker). -/
def process_candidate (env : Env) (policy : RetentionPolicy)
    (einfo : Option EventInfo) (cand : RetentionCandidate) (now : Nat)
    (s : Store) : Store :=
  let user_prefs := match cand.sender with
    | some snd => get_user_prefs s snd
    | none => prefsDefault
  let should_auto_delete := if cand.from_encrypted_room then
      user_prefs.auto_delete_encrypted
    else
      user_prefs.auto_delete_unencrypted
  if should_auto_delete then
    queue_media_for_deletion cand.mxc (cand.sender.bind parseUserId) false
      none none none none cand.from_encrypted_room now s
  else
    let d := evaluate_retention_candidate env policy einfo cand
    match d.action, d.owner with
    | .DeleteImmediately, owner =>
        queue_media_for_deletion cand.mxc owner false
          none none none none cand.from_encrypted_room now s
    | .AwaitConfirmation, some owner =>
        let ids : Option String × Option String × Option String × Option String :=
          if env.user_is_local owner then
            match env.send_text owner (build_retention_notice cand einfo) with
            | some eid =>
                (some eid, env.add_reaction owner eid "✅",
                 env.add_reaction owner eid "❌", env.add_reaction owner eid "⚙️")
            | none => (none, none, none, none)
          else (none, none, none, none)
        queue_media_for_deletion cand.mxc (some owner) true
          ids.1 ids.2.1 ids.2.2.1 ids.2.2.2 cand.from_encrypted_room now s
    | .AwaitConfirmation, none => s
    | .Skip, _ => s

/-- One operation of the reference-counting interface exercised by the
event pipeline: an event insert or a redaction decrement, with the wall
clock passed explicitly. -/
inductive RetOp where
  | ins (event_id room_id sender : String)
      (mxcs : List (String × Bool × String)) (now : Nat)
  | dec (event_id : String) (policy : RetentionPolicy) (now : Nat)
deriving Repr

/-- Run one operation; a decrement that aborts with an error leaves the
store unchanged (its batch is never written). -/
def applyOp (s : Store) : RetOp → Store
  | .ins e r u m now => insert_mxcs_on_event e r u m now s
  | .dec e p now =>
      match decrement_refcount_on_redaction e p now s with
      | .ok res => res.2
      | .error _ => s

/-- Run a sequence of operations. -/
def runOps (s : Store) (ops : List RetOp) : Store := ops.foldl applyOp s

/-- The stored refcount of a media identifier, read as the decrement path
reads it: 0 when the `mref:` row is absent or undecodable. -/
def rcOf (s : Store) (A : String) : Int :=
  match sget s (kMref A) with
  | some (.mref m) => m.refcount
  | _ => 0

/-- Does this operation insert refs mentioning media identifier `A`? -/
def insMentions (op : RetOp) (A : String) : Bool :=
  match op with
  | .ins _ _ _ mxcs _ => mxcs.any (fun e => e.1 == A)
  | _ => false

/-- Number of insert calls in the sequence whose refs mention `A`. -/
def insCount (ops : List RetOp) (A : String) : Nat :=
  (ops.filter (fun op => insMentions op A)).length

/-- Is the entry a live media-event ref naming `A`? -/
def rowIsA (A : String) (kv : Key × Val) : Bool :=
  match kv.2 with
  | .mer m => m.mxc == A
  | _ => false

/-- Does this operation, run on store `s`, decrement `A`: is it a
redaction decrement whose prefix scan finds a media-event ref naming `A`? -/
def decTouches (s : Store) (op : RetOp) (A : String) : Bool :=
  match op with
  | .dec e _ _ => (scanPref s (merPre e)).any (rowIsA A)
  | _ => false

/-- Number of decrement calls in the sequence that find (and remove) at
least one live media-event ref naming `A`. -/
def effDec (s : Store) (ops : List RetOp) (A : String) : Nat :=
  match ops with
  | [] => 0
  | op :: rest => (if decTouches s op A then 1 else 0) + effDec (applyOp s op) rest A

/-- Stated from the claim's words, for comparison with the code: the
number of insert increments for `A` — one per occurrence of `A` in each
insert call's refs list. -/
def specInsIncrements (ops : List RetOp) (A : String) : Nat :=
  (ops.map (fun op =>
    match op with
    | RetOp.ins _ _ _ mxcs _ => (mxcs.filter (fun e => e.1 == A)).length
    | _ => 0)).sum

/-- Stated from the claim's words, for comparison with the code: the
number of decrements for `A` — one per media-event ref naming `A`
processed by each redaction decrement in the sequence. -/
def specDecCount (s : Store) (ops : List RetOp) (A : String) : Nat :=
  match ops with
  | [] => 0
  | op :: rest =>
      (match op with
       | RetOp.dec e _ _ => ((scanPref s (merPre e)).filter (rowIsA A)).length
       | _ => 0) + specDecCount (applyOp s op) rest A

/-- Stated from the claim's words, for comparison with the code: the
refcount the claim predicts — insert increments minus decrements, clamped
at 0. -/
def specRefcount (s : Store) (ops : List RetOp) (A : String) : Int :=
  max 0 ((specInsIncrements ops A : Int) - (specDecCount s ops A : Int))

/-- Event identifiers written and scanned by the operations must not
contain `:`, so that `mer:<event_id>:<kind>` keys group unambiguously. -/
def opWf (op : RetOp) : Prop :=
  match op with
  | .ins e _ _ _ _ => ':' ∉ e.data
  | .dec e _ _ => ':' ∉ e.data

instance opWf_decidable (op : RetOp) : Decidable (opWf op) :=
  match op with
  | .ins e _ _ _ _ => inferInstanceAs (Decidable (':' ∉ e.data))
  | .dec e _ _ => inferInstanceAs (Decidable (':' ∉ e.data))

instance keysNodup_decidable (s : Store) : Decidable (keysNodup s) :=
  inferInstanceAs (Decidable ((s.map Prod.fst).Nodup))

/-- The event-id segment of a `mer:` key: the characters between the
`mer:` tag and the following `:`. -/
def evtOf (k : Key) : Key := (k.drop 4).takeWhile (fun c => !(c == ':'))

/-- The set of event groups holding a live media-event ref naming `A`. -/
def liveEvts (s : Store) (A : String) : Finset Key :=
  ((s.filter (rowIsA A)).map (fun kv => evtOf kv.1)).toFinset

/-- A `mer:`-family entry: a decodable media-event ref keyed by a
colon-free event id and a kind. -/
def merFam (kv : Key × Val) : Prop :=
  ∃ e kind m, ':' ∉ e.data ∧ kv.1 = kMer e kind ∧ kv.2 = Val.mer m

/-- An `mref:`-family entry: a decodable media ref keyed by an mxc. -/
def mrefFam (kv : Key × Val) : Prop :=
  ∃ x m, kv.1 = kMref x ∧ kv.2 = Val.mref m

/-- The invariant the reference-counting operations maintain for a fixed
media identifier `A`: one entry per key, every entry belongs to the
`mer:` or `mref:` family, and the refcount of `A` dominates the number of
event groups holding a live ref naming `A`. -/
structure InvS (A : String) (s : Store) : Prop where
  nd : keysNodup s
  fam : ∀ kv ∈ s, merFam kv ∨ mrefFam kv
  cnt : ((liveEvts s A).card : Int) ≤ rcOf s A

/-- Number of entries of the store carrying exactly key `k`. -/
def countKey (s : Store) (k : Key) : Nat :=
  (s.filter (fun kv => kv.1 == k)).length

theorem sdel_cons (a : Key) (v : Val) (tl : Store) (k : Key) :
    sdel ((a, v) :: tl) k =
      if a = k then sdel tl k else (a, v) :: sdel tl k := rfl

theorem sget_cons (a : Key) (v : Val) (tl : Store) (k : Key) :
    sget ((a, v) :: tl) k = if a = k then some v else sget tl k := rfl

theorem sget_sdel (s : Store) (k k' : Key) :
    sget (sdel s k) k' = if k' = k then none else sget s k' := by
  induction s with
  | nil => simp [sdel, sget]
  | cons hd tl ih =>
    obtain ⟨a, v⟩ := hd
    by_cases hak : a = k
    · subst hak
      by_cases hk : k' = a
      · subst hk
        simpa [sdel, sget] using ih
      · have h2 : a ≠ k' := fun h => hk h.symm
        simp [sdel, sget, hk, h2, ih]
    · by_cases hk : k' = a
      · subst hk
        simp [sdel, sget, hak]
      · have h2 : a ≠ k' := fun h => hk h.symm
        simp [sdel, sget, hak, h2, hk, ih]

theorem sget_append (s t : Store) (k : Key) :
    sget (s ++ t) k = match sget s k with
      | some v => some v
      | none => sget t k := by
  induction s with
  | nil => simp [sget]
  | cons hd tl ih =>
    obtain ⟨a, v⟩ := hd
    by_cases hk : a = k <;> simp [sget, hk, ih]

theorem sget_sput (s : Store) (k : Key) (v : Val) (k' : Key) :
    sget (sput s k v) k' = if k' = k then some v else sget s k' := by
  unfold sput
  rw [sget_append, sget_sdel]
  by_cases hk : k' = k
  · simp [sget, hk]
  · have h2 : k ≠ k' := fun h => hk h.symm
    cases hg : sget s k' <;> simp [sget, hk, h2, hg]

theorem sdel_sublist (s : Store) (k : Key) : (sdel s k).Sublist s := by
  induction s with
  | nil => simp [sdel]
  | cons hd tl ih =>
    obtain ⟨a, v⟩ := hd
    by_cases hak : a = k
    · simpa [sdel, hak] using List.Sublist.cons (a, v) ih
    · simpa [sdel, hak] using List.Sublist.cons₂ (a, v) ih

theorem keysNodup_sdel (s : Store) (k : Key) (h : keysNodup s) :
    keysNodup (sdel s k) :=
  List.Nodup.sublist (List.Sublist.map Prod.fst (sdel_sublist s k)) h

theorem not_mem_keys_sdel (s : Store) (k : Key) :
    k ∉ (sdel s k).map Prod.fst := by
  induction s with
  | nil => simp [sdel]
  | cons hd tl ih =>
    obtain ⟨a, v⟩ := hd
    by_cases hak : a = k
    · rw [sdel_cons, if_pos hak]; exact ih
    · rw [sdel_cons, if_neg hak]
      intro hmem
      rcases List.mem_cons.mp hmem with h1 | h1
      · exact hak h1.symm
      · exact ih h1

theorem keysNodup_sput (s : Store) (k : Key) (v : Val) (h : keysNodup s) :
    keysNodup (sput s k v) := by
  unfold sput keysNodup
  rw [List.map_append]
  refine List.Nodup.append (keysNodup_sdel s k h) (by simp) ?_
  intro a ha hb
  simp only [List.map_cons, List.map_nil, List.mem_singleton] at hb
  rw [hb] at ha
  exact not_mem_keys_sdel s k ha

theorem sget_mem (s : Store) (k : Key) (v : Val) (h : sget s k = some v) :
    (k, v) ∈ s := by
  induction s with
  | nil => simp [sget] at h
  | cons hd tl ih =>
    obtain ⟨a, w⟩ := hd
    by_cases hak : a = k
    · subst hak
      simp only [sget, if_pos] at h
      cases h
      exact List.mem_cons_self _ _
    · exact List.mem_cons_of_mem _ (ih (by simpa [sget, hak] using h))

theorem mem_sget (s : Store) (k : Key) (v : Val) (nd : keysNodup s)
    (h : (k, v) ∈ s) : sget s k = some v := by
  induction s with
  | nil => simp at h
  | cons hd tl ih =>
    obtain ⟨a, w⟩ := hd
    unfold keysNodup at nd
    simp only [List.map_cons, List.nodup_cons] at nd
    rcases List.mem_cons.mp h with h1 | h1
    · cases h1; simp [sget]
    · have hak : a ≠ k := by
        intro hak
        subst hak
        exact nd.1 (List.mem_map.mpr ⟨(a, v), h1, rfl⟩)
      simpa [sget, hak] using ih nd.2 h1

theorem sget_eq_none (s : Store) (k : Key)
    (h : ∀ kv ∈ s, kv.1 ≠ k) : sget s k = none := by
  induction s with
  | nil => simp [sget]
  | cons hd tl ih =>
    obtain ⟨a, w⟩ := hd
    have hak : a ≠ k := h (a, w) (List.mem_cons_self _ _)
    simpa [sget, hak] using ih (fun kv hkv => h kv (List.mem_cons_of_mem _ hkv))

theorem lastPut_cons (a : Key) (w : Val) (tl : List (Key × Val)) (k : Key) :
    lastPut ((a, w) :: tl) k =
      match lastPut tl k with
      | some u => some u
      | none => if a = k then some w else none := rfl

theorem lastPut_mem (puts : List (Key × Val)) (k : Key) (v : Val)
    (h : lastPut puts k = some v) : (k, v) ∈ puts := by
  induction puts with
  | nil => simp [lastPut] at h
  | cons hd tl ih =>
    obtain ⟨a, w⟩ := hd
    rw [lastPut_cons] at h
    cases hlp : lastPut tl k with
    | some u =>
        rw [hlp] at h
        cases h
        exact List.mem_cons_of_mem _ (ih hlp)
    | none =>
        rw [hlp] at h
        by_cases hak : a = k
        · subst hak
          simp at h
          subst h
          exact List.mem_cons_self _ _
        · simp [hak] at h

theorem lastPut_eq_none (puts : List (Key × Val)) (k : Key)
    (h : ∀ kv ∈ puts, kv.1 ≠ k) : lastPut puts k = none := by
  induction puts with
  | nil => rfl
  | cons hd tl ih =>
    obtain ⟨a, w⟩ := hd
    have hak : a ≠ k := h (a, w) (List.mem_cons_self _ _)
    rw [lastPut_cons, ih (fun kv hkv => h kv (List.mem_cons_of_mem _ hkv))]
    simp [hak]

theorem sget_foldl_sput (puts : List (Key × Val)) (s : Store) (k : Key) :
    sget (puts.foldl (fun t kv => sput t kv.1 kv.2) s) k =
      match lastPut puts k with
      | some v => some v
      | none => sget s k := by
  induction puts generalizing s with
  | nil => rfl
  | cons hd tl ih =>
    obtain ⟨a, w⟩ := hd
    simp only [List.foldl_cons]
    rw [ih, lastPut_cons]
    cases hlp : lastPut tl k with
    | some u => rfl
    | none =>
        rw [sget_sput]
        by_cases hak : a = k
        · subst hak
          simp
        · have h2 : ¬k = a := fun h => hak h.symm
          simp [hak, h2]

theorem sget_foldl_sdel (dels : List Key) (s : Store) (k : Key) :
    sget (dels.foldl sdel s) k = if k ∈ dels then none else sget s k := by
  induction dels generalizing s with
  | nil => simp
  | cons hd tl ih =>
    simp only [List.foldl_cons]
    rw [ih, sget_sdel]
    by_cases hk : k ∈ tl
    · simp [hk]
    · by_cases hhd : k = hd <;> simp [hk, hhd]

theorem sget_applyBatch (s : Store) (puts : List (Key × Val)) (dels : List Key)
    (k : Key) :
    sget (applyBatch s puts dels) k =
      if k ∈ dels then none else
        match lastPut puts k with
        | some v => some v
        | none => sget s k := by
  unfold applyBatch
  rw [sget_foldl_sdel, sget_foldl_sput]

theorem keysNodup_foldl_sput (puts : List (Key × Val)) (s : Store)
    (h : keysNodup s) :
    keysNodup (puts.foldl (fun t kv => sput t kv.1 kv.2) s) := by
  induction puts generalizing s with
  | nil => exact h
  | cons hd tl ih => exact ih _ (keysNodup_sput _ _ _ h)

theorem keysNodup_foldl_sdel (dels : List Key) (s : Store) (h : keysNodup s) :
    keysNodup (dels.foldl sdel s) := by
  induction dels generalizing s with
  | nil => exact h
  | cons hd tl ih => exact ih _ (keysNodup_sdel _ _ h)

theorem keysNodup_applyBatch (s : Store) (puts : List (Key × Val))
    (dels : List Key) (h : keysNodup s) : keysNodup (applyBatch s puts dels) :=
  keysNodup_foldl_sdel _ _ (keysNodup_foldl_sput _ _ h)

theorem mem_scanPref (s : Store) (p : Key) (kv : Key × Val) :
    kv ∈ scanPref s p ↔ kv ∈ s ∧ p.isPrefixOf kv.1 = true := by
  unfold scanPref
  exact List.mem_filter

theorem scanPref_sublist (s : Store) (p : Key) : (scanPref s p).Sublist s :=
  List.filter_sublist s

theorem countKey_le_one (s : Store) (k : Key) (h : keysNodup s) :
    countKey s k ≤ 1 := by
  unfold countKey
  induction s with
  | nil => simp
  | cons hd tl ih =>
    obtain ⟨a, v⟩ := hd
    unfold keysNodup at h
    simp only [List.map_cons, List.nodup_cons] at h
    by_cases hak : a = k
    · subst hak
      have : (tl.filter (fun kv => kv.1 == a)).length = 0 := by
        rw [List.length_eq_zero]
        refine List.filter_eq_nil_iff.mpr ?_
        intro kv hkv hbeq
        exact h.1 (List.mem_map.mpr ⟨kv, hkv, by simpa using hbeq⟩)
      simp [List.filter_cons, this]
    · have hk := ih h.2
      simpa [List.filter_cons, hak] using hk

theorem kMref_inj (x y : String) (h : kMref x = kMref y) : x = y := by
  unfold kMref K_MREF at h
  simp only [List.cons_append, List.nil_append, List.cons.injEq, true_and] at h
  exact String.ext h

theorem kQueue_inj (x y : String) (h : kQueue x = kQueue y) : x = y := by
  unfold kQueue K_QUEUE at h
  simp only [List.cons_append, List.nil_append, List.cons.injEq, true_and] at h
  exact String.ext h

theorem kMer_ne_kMref (e kind x : String) : kMer e kind ≠ kMref x := by
  unfold kMer kMref K_MER K_MREF
  intro h
  simp only [List.cons_append, List.nil_append, List.cons.injEq] at h
  exact absurd h.2.1 (by decide)

theorem kQueue_ne_kMref (x y : String) : kQueue x ≠ kMref y := by
  unfold kQueue kMref K_QUEUE K_MREF
  intro h
  simp only [List.cons_append, List.nil_append, List.cons.injEq] at h
  exact absurd h.1 (by decide)

theorem merPre_not_pre_kMref (e x : String) :
    ¬(merPre e).isPrefixOf (kMref x) = true := by
  rw [List.isPrefixOf_iff_prefix]
  unfold merPre kMref K_MER K_MREF
  intro h
  simp only [List.cons_append, List.nil_append, List.cons_prefix_cons] at h
  exact absurd h.2.1 (by decide)

theorem colon_split (as : List Char) :
    ∀ (bs xs : List Char), ':' ∉ as → ':' ∉ bs →
      ((as ++ [':'] <+: bs ++ ':' :: xs) ↔ as = bs) := by
  induction as with
  | nil =>
    intro bs xs _ hb
    cases bs with
    | nil =>
      simp only [List.nil_append, List.cons_prefix_cons, true_and]
      constructor
      · intro _; trivial
      · intro _; exact List.nil_prefix
    | cons b bs2 =>
      have hb1 : ':' ≠ b := by
        intro h
        exact hb (by rw [h]; exact List.mem_cons_self b bs2)
      simp [List.cons_prefix_cons, hb1]
  | cons a as2 ih =>
    intro bs xs ha hb
    have ha1 : a ≠ ':' := by
      intro h
      exact ha (by rw [← h]; exact List.mem_cons_self a as2)
    have ha2 : ':' ∉ as2 := fun h => ha (List.mem_cons_of_mem a h)
    cases bs with
    | nil =>
      simp [List.cons_prefix_cons, ha1]
    | cons b bs2 =>
      have hb2 : ':' ∉ bs2 := fun h => hb (List.mem_cons_of_mem b h)
      simp only [List.cons_append, List.cons_prefix_cons, List.cons.injEq]
      rw [ih bs2 xs ha2 hb2]

theorem merPre_isPre_kMer (e e2 kind : String) (he : ':' ∉ e.data)
    (he2 : ':' ∉ e2.data) :
    (merPre e).isPrefixOf (kMer e2 kind) = true ↔ e = e2 := by
  rw [List.isPrefixOf_iff_prefix]
  unfold merPre kMer
  rw [List.append_assoc, List.append_assoc, List.prefix_append_right_inj,
    colon_split e.data e2.data kind.data he he2]
  exact ⟨fun h => String.ext h, fun h => by rw [h]⟩

theorem string_data_inj (e e2 : String) (h : e.data = e2.data) : e = e2 :=
  String.ext h

theorem drop4_kmer (l : List Char) : (K_MER ++ l).drop 4 = l := rfl

theorem takeWhile_colon (l xs : List Char) (h : ':' ∉ l) :
    (l ++ ':' :: xs).takeWhile (fun c => !(c == ':')) = l := by
  induction l with
  | nil => simp [List.takeWhile]
  | cons a l2 ih =>
    have ha : a ≠ ':' := by
      intro hh
      exact h (by rw [← hh]; exact List.mem_cons_self a l2)
    have h2 : ':' ∉ l2 := fun hh => h (List.mem_cons_of_mem a hh)
    simp only [List.cons_append, List.takeWhile_cons]
    rw [ih h2]
    simp [ha]

theorem evtOf_kMer (e kind : String) (he : ':' ∉ e.data) :
    evtOf (kMer e kind) = e.data := by
  unfold evtOf kMer
  rw [List.append_assoc, drop4_kmer]
  exact takeWhile_colon e.data kind.data he

theorem mem_foldl_sput (puts : List (Key × Val)) (s : Store) (kv : Key × Val)
    (h : kv ∈ puts.foldl (fun t p => sput t p.1 p.2) s) : kv ∈ s ∨ kv ∈ puts := by
  induction puts generalizing s with
  | nil => exact Or.inl h
  | cons hd tl ih =>
    rcases ih (sput s hd.1 hd.2) (by simpa using h) with h1 | h1
    · unfold sput at h1
      rcases List.mem_append.mp h1 with h2 | h2
      · exact Or.inl (List.Sublist.mem h2 (sdel_sublist s hd.1))
      · simp only [List.mem_singleton] at h2
        subst h2
        exact Or.inr (by simp)
    · exact Or.inr (List.mem_cons_of_mem _ h1)

theorem mem_foldl_sdel (dels : List Key) (s : Store) (kv : Key × Val)
    (h : kv ∈ dels.foldl sdel s) : kv ∈ s := by
  induction dels generalizing s with
  | nil => exact h
  | cons hd tl ih =>
    exact List.Sublist.mem (ih (sdel s hd) (by simpa using h)) (sdel_sublist s hd)

theorem mem_applyBatch_sub (s : Store) (puts : List (Key × Val)) (dels : List Key)
    (kv : Key × Val) (h : kv ∈ applyBatch s puts dels) : kv ∈ s ∨ kv ∈ puts :=
  mem_foldl_sput puts s kv (mem_foldl_sdel dels _ kv h)

theorem mem_liveEvts (s : Store) (A : String) (x : Key) :
    x ∈ liveEvts s A ↔ ∃ kv, kv ∈ s ∧ rowIsA A kv = true ∧ evtOf kv.1 = x := by
  unfold liveEvts
  rw [List.mem_toFinset, List.mem_map]
  constructor
  · rintro ⟨kv, hkv, hx⟩
    rcases List.mem_filter.mp hkv with ⟨h1, h2⟩
    exact ⟨kv, h1, h2, hx⟩
  · rintro ⟨kv, h1, h2, hx⟩
    exact ⟨kv, List.mem_filter.mpr ⟨h1, h2⟩, hx⟩

theorem insertPuts_mem (s : Store) (e r u : String) (now : Nat) :
    ∀ (mxcs : List (String × Bool × String)) (kv : Key × Val),
      kv ∈ insertPuts s e r u now mxcs →
      (∃ kind m, kv = (kMer e kind, Val.mer m) ∧
        mxcs.any (fun t => t.1 == m.mxc) = true) ∨
      (∃ x loc, kv = (kMref x, Val.mref (newMref s x loc now)) ∧
        mxcs.any (fun t => t.1 == x) = true) := by
  intro mxcs
  induction mxcs with
  | nil => intro kv h; simp [insertPuts] at h
  | cons hd tl ih =>
    obtain ⟨x, loc, kind⟩ := hd
    intro kv h
    have h3 : kv = (kMer e kind, Val.mer ⟨x, r, kind, some u⟩) ∨
        kv = (kMref x, Val.mref (newMref s x loc now)) ∨
        kv ∈ insertPuts s e r u now tl := by
      simpa [insertPuts] using h
    rcases h3 with h1 | h1 | h1
    · refine Or.inl ⟨kind, _, h1, ?_⟩
      simp
    · refine Or.inr ⟨x, loc, h1, ?_⟩
      simp
    · rcases ih kv h1 with h4 | h4
      · obtain ⟨kind2, m2, hkv, hany⟩ := h4
        refine Or.inl ⟨kind2, m2, hkv, ?_⟩
        simp only [List.any_cons, Bool.or_eq_true]
        exact Or.inr hany
      · obtain ⟨x2, loc2, hkv, hany⟩ := h4
        refine Or.inr ⟨x2, loc2, hkv, ?_⟩
        simp only [List.any_cons, Bool.or_eq_true]
        exact Or.inr hany

theorem lastPut_insertPuts_none (s : Store) (e r u : String) (now : Nat)
    (mxcs : List (String × Bool × String)) (A : String)
    (h : mxcs.any (fun t => t.1 == A) = false) :
    lastPut (insertPuts s e r u now mxcs) (kMref A) = none := by
  refine lastPut_eq_none _ _ ?_
  intro kv hkv
  rcases insertPuts_mem s e r u now mxcs kv hkv with h1 | h1
  · obtain ⟨kind, m, hkv2, _⟩ := h1
    rw [hkv2]
    exact kMer_ne_kMref e kind A
  · obtain ⟨x, loc, hkv2, hany⟩ := h1
    rw [hkv2]
    intro hcontra
    have hx : x = A := kMref_inj x A hcontra
    subst hx
    rw [hany] at h
    exact Bool.noConfusion h

theorem lastPut_insertPuts_some (s : Store) (e r u : String) (now : Nat)
    (mxcs : List (String × Bool × String)) (A : String)
    (h : mxcs.any (fun t => t.1 == A) = true) :
    ∃ loc, lastPut (insertPuts s e r u now mxcs) (kMref A) =
      some (Val.mref (newMref s A loc now)) := by
  induction mxcs with
  | nil => simp at h
  | cons hd tl ih =>
    obtain ⟨x, loc, kind⟩ := hd
    have hexp : insertPuts s e r u now ((x, loc, kind) :: tl) =
        (kMer e kind, Val.mer ⟨x, r, kind, some u⟩) ::
        (kMref x, Val.mref (newMref s x loc now)) :: insertPuts s e r u now tl := rfl
    rw [hexp, lastPut_cons, lastPut_cons]
    by_cases htl : tl.any (fun t => t.1 == A) = true
    · obtain ⟨loc2, hl⟩ := ih htl
      rw [hl]
      exact ⟨loc2, rfl⟩
    · have htl2 : tl.any (fun t => t.1 == A) = false := by
        cases hq : tl.any (fun t => t.1 == A)
        · rfl
        · exact absurd hq htl
      have hx : x = A := by
        have hc := h
        simp only [List.any_cons] at hc
        rw [htl2, Bool.or_false] at hc
        exact beq_iff_eq.mp hc
      subst hx
      rw [lastPut_insertPuts_none s e r u now tl x htl2]
      simp only [if_pos rfl]
      have hne : kMer e kind ≠ kMref x := kMer_ne_kMref e kind x
      rw [if_neg hne]
      exact ⟨loc, rfl⟩

theorem pendingPre_isPre_kPending (u : String) (ts : Nat) :
    (pendingPre u).isPrefixOf (kPending u ts) = true := by
  rw [List.isPrefixOf_iff_prefix]
  unfold pendingPre kPending
  rw [List.append_assoc, List.append_assoc]
  refine (List.prefix_append_right_inj K_PENDING).mpr ?_
  refine (List.prefix_append_right_inj u.data).mpr ?_
  exact ⟨(toString ts).data, rfl⟩

theorem satAdd1_of_lt (x : Int) (h : x < i64Max) : satAdd1 x = x + 1 := by
  unfold satAdd1
  exact min_eq_left (by omega)

theorem satSub1_of_pos (x : Int) (h : 0 < x) : satSub1 x = x - 1 := by
  unfold satSub1
  refine max_eq_left ?_
  unfold i64Min
  have : (0 : Int) < 2 ^ 63 := by positivity
  omega

theorem rcOf_pos_shape (s : Store) (A : String) (h : 0 < rcOf s A) :
    ∃ m, sget s (kMref A) = some (Val.mref m) ∧ m.refcount = rcOf s A := by
  cases hg : sget s (kMref A) with
  | none => unfold rcOf at h; rw [hg] at h; simp at h
  | some v =>
      cases v with
      | mref m =>
          refine ⟨m, rfl, ?_⟩
          unfold rcOf
          rw [hg]
      | mer m => unfold rcOf at h; rw [hg] at h; simp at h
      | cand c => unfold rcOf at h; rw [hg] at h; simp at h
      | pend p => unfold rcOf at h; rw [hg] at h; simp at h
      | prefs p => unfold rcOf at h; rw [hg] at h; simp at h
      | corrupt => unfold rcOf at h; rw [hg] at h; simp at h

theorem nodup_key_unique (s : Store) (nd : keysNodup s) (kv kv2 : Key × Val)
    (h1 : kv ∈ s) (h2 : kv2 ∈ s) (hk : kv.1 = kv2.1) : kv = kv2 := by
  have g1 : sget s kv.1 = some kv.2 := mem_sget s kv.1 kv.2 nd (by simpa using h1)
  have g2 : sget s kv2.1 = some kv2.2 := mem_sget s kv2.1 kv2.2 nd (by simpa using h2)
  rw [hk, g2] at g1
  exact Prod.ext hk (Option.some.inj g1).symm

theorem scan_shape (A : String) (s : Store) (e : String) (inv : InvS A s)
    (he : ':' ∉ e.data) :
    ∀ kv ∈ scanPref s (merPre e), ∃ kind m, kv.1 = kMer e kind ∧ kv.2 = Val.mer m := by
  intro kv hkv
  obtain ⟨hin, hpre⟩ := (mem_scanPref s _ kv).mp hkv
  rcases inv.fam kv hin with h1 | h1
  · obtain ⟨e2, kind, m, he2, hk, hv⟩ := h1
    have heq : e = e2 := by
      rw [hk] at hpre
      exact (merPre_isPre_kMer e e2 kind he he2).mp hpre
    subst heq
    exact ⟨kind, m, hk, hv⟩
  · obtain ⟨x, m, hk, hv⟩ := h1
    rw [hk] at hpre
    exact absurd hpre (merPre_not_pre_kMref e x)

theorem decLoop_ok (s : Store) (policy : RetentionPolicy) (now : Nat)
    (rows : List (Key × Val))
    (hrows : ∀ kv ∈ rows, ∃ m, kv.2 = Val.mer m ∧
      ∀ w, sget s (kMref m.mxc) = some w → ∃ mr, w = Val.mref mr) :
    ∃ td puts dels, decLoop s policy now rows = .ok (td, puts, dels) ∧
      dels = rows.map Prod.fst ∧
      (∀ kv ∈ puts, ∃ x mr, kv = (kMref x, Val.mref mr)) ∧
      (∀ A mr, sget s (kMref A) = some (Val.mref mr) → rows.any (rowIsA A) = true →
        lastPut puts (kMref A) =
          some (Val.mref ⟨satSub1 mr.refcount, mr.loc, mr.first_seen_ts, now⟩)) ∧
      (∀ A, rows.any (rowIsA A) = false → lastPut puts (kMref A) = none) ∧
      (∀ A, sget s (kMref A) = none → lastPut puts (kMref A) = none) := by
  induction rows with
  | nil =>
    refine ⟨[], [], [], rfl, rfl, by simp, ?_, ?_, ?_⟩
    · intro A mr _ h2
      simp at h2
    · intro A _
      rfl
    · intro A _
      rfl
  | cons hd tl ih =>
    obtain ⟨k, v⟩ := hd
    obtain ⟨m, hv, hw⟩ := hrows (k, v) (List.mem_cons_self _ _)
    have htl : ∀ kv ∈ tl, ∃ m2, kv.2 = Val.mer m2 ∧
        ∀ w, sget s (kMref m2.mxc) = some w → ∃ mr, w = Val.mref mr :=
      fun kv hkv => hrows kv (List.mem_cons_of_mem _ hkv)
    obtain ⟨td, puts, dels, heq, hdels, hputs, hA, hA2, hA3⟩ := ih htl
    simp only at hv
    subst hv
    cases hg : sget s (kMref m.mxc) with
    | some w =>
        obtain ⟨mr, hwv⟩ := hw w hg
        subst hwv
        have hstep : decLoop s policy now ((k, Val.mer m) :: tl) =
            .ok ((if shouldQueue policy
                    ⟨satSub1 mr.refcount, mr.loc, mr.first_seen_ts, now⟩ then
                    [(m.mxc, m.room_id, m.sender)] else []) ++ td,
                 (kMref m.mxc,
                   Val.mref ⟨satSub1 mr.refcount, mr.loc, mr.first_seen_ts, now⟩) :: puts,
                 k :: dels) := by
          simp only [decLoop, hg, heq]
        refine ⟨_, _, _, hstep, by rw [hdels]; rfl, ?_, ?_, ?_, ?_⟩
        · intro kv hkv
          rcases List.mem_cons.mp hkv with h1 | h1
          · exact ⟨m.mxc, _, h1⟩
          · exact hputs kv h1
        · intro A mrA hgA hanyA
          rw [lastPut_cons]
          by_cases hrest : tl.any (rowIsA A) = true
          · rw [hA A mrA hgA hrest]
          · have hrest2 : tl.any (rowIsA A) = false := by
              cases hq : tl.any (rowIsA A)
              · rfl
              · exact absurd hq hrest
            rw [hA2 A hrest2]
            have hmxc : m.mxc = A := by
              have hc := hanyA
              simp only [List.any_cons] at hc
              rw [hrest2, Bool.or_false] at hc
              unfold rowIsA at hc
              simpa using hc
            subst hmxc
            rw [hgA] at hg
            have hmr : mrA = mr := by
              cases hg
              rfl
            subst hmr
            rw [if_pos rfl]
        · intro A hanyA
          rw [lastPut_cons]
          have hhead : rowIsA A (k, Val.mer m) = false := by
            cases hq : rowIsA A (k, Val.mer m)
            · rfl
            · exfalso
              have : ((k, Val.mer m) :: tl).any (rowIsA A) = true := by
                simp only [List.any_cons, hq, Bool.true_or]

              rw [this] at hanyA
              exact Bool.noConfusion hanyA
          have hrest : tl.any (rowIsA A) = false := by
            cases hq : tl.any (rowIsA A)
            · rfl
            · exfalso
              have : ((k, Val.mer m) :: tl).any (rowIsA A) = true := by
                simp only [List.any_cons, hq, Bool.or_true]
              rw [this] at hanyA
              exact Bool.noConfusion hanyA
          rw [hA2 A hrest]
          have hmxc : m.mxc ≠ A := by
            unfold rowIsA at hhead
            simpa using hhead
          have hkne : kMref m.mxc ≠ kMref A := fun hcon => hmxc (kMref_inj _ _ hcon)
          rw [if_neg hkne]
        · intro A hgA
          rw [lastPut_cons]
          rw [hA3 A hgA]
          have hmxc : m.mxc ≠ A := by
            intro hcon
            rw [hcon, hgA] at hg
            exact Option.noConfusion hg
          have hkne : kMref m.mxc ≠ kMref A := fun hcon => hmxc (kMref_inj _ _ hcon)
          rw [if_neg hkne]
    | none =>
        have hstep : decLoop s policy now ((k, Val.mer m) :: tl) =
            .ok (td, puts, k :: dels) := by
          simp only [decLoop, hg, heq]
        refine ⟨_, _, _, hstep, by rw [hdels]; rfl, hputs, ?_, ?_, hA3⟩
        · intro A mrA hgA hanyA
          by_cases hrest : tl.any (rowIsA A) = true
          · exact hA A mrA hgA hrest
          · exfalso
            have hrest2 : tl.any (rowIsA A) = false := by
              cases hq : tl.any (rowIsA A)
              · rfl
              · exact absurd hq hrest
            have hmxc : m.mxc = A := by
              have hc := hanyA
              simp only [List.any_cons] at hc
              rw [hrest2, Bool.or_false] at hc
              unfold rowIsA at hc
              simpa using hc
            rw [hmxc, hgA] at hg
            exact Option.noConfusion hg
        · intro A hanyA
          have hrest : tl.any (rowIsA A) = false := by
            cases hq : tl.any (rowIsA A)
            · rfl
            · exfalso
              have hcon : ((k, Val.mer m) :: tl).any (rowIsA A) = true := by
                simp only [List.any_cons, hq, Bool.or_true]
              rw [hcon] at hanyA
              exact Bool.noConfusion hanyA
          exact hA2 A hrest

theorem dec_step (A e : String) (policy : RetentionPolicy) (now : Nat)
    (s : Store) (inv : InvS A s) (he : ':' ∉ e.data) :
    InvS A (applyOp s (RetOp.dec e policy now)) ∧
    rcOf (applyOp s (RetOp.dec e policy now)) A =
      rcOf s A -
        (if decTouches s (RetOp.dec e policy now) A = true then 1 else 0) := by
  have hshape := scan_shape A s e inv he
  have hrows : ∀ kv ∈ scanPref s (merPre e), ∃ m, kv.2 = Val.mer m ∧
      ∀ w, sget s (kMref m.mxc) = some w → ∃ mr, w = Val.mref mr := by
    intro kv hkv
    obtain ⟨kind, m, hk, hv⟩ := hshape kv hkv
    refine ⟨m, hv, ?_⟩
    intro w hw
    have hmem := sget_mem s _ w hw
    rcases inv.fam _ hmem with h1 | h1
    · obtain ⟨e2, kind2, m2, _, hk2, _⟩ := h1
      simp only at hk2
      exact absurd hk2.symm (kMer_ne_kMref e2 kind2 m.mxc)
    · obtain ⟨x, mr, _, hv2⟩ := h1
      simp only at hv2
      exact ⟨mr, hv2⟩
  obtain ⟨td, puts, dels, heq, hdels, hputs, hA, hA2, hA3⟩ :=
    decLoop_ok s policy now (scanPref s (merPre e)) hrows
  have happ : applyOp s (RetOp.dec e policy now) = applyBatch s puts dels := by
    simp only [applyOp, decrement_refcount_on_redaction, heq]
  have hdelmer : ∀ k ∈ dels, ∃ kind, k = kMer e kind := by
    rw [hdels]
    intro k hk
    obtain ⟨kv, hkv, hfst⟩ := List.mem_map.mp hk
    obtain ⟨kind, m, hk1, _⟩ := hshape kv hkv
    exact ⟨kind, by rw [← hfst, hk1]⟩
  have hdelnotmref : ∀ x, kMref x ∉ dels := by
    intro x hx
    obtain ⟨kind, hk⟩ := hdelmer _ hx
    exact kMer_ne_kMref e kind x hk.symm
  have htouch : decTouches s (RetOp.dec e policy now) A =
      (scanPref s (merPre e)).any (rowIsA A) := rfl
  have ndA : keysNodup (applyBatch s puts dels) :=
    keysNodup_applyBatch s puts dels inv.nd
  have hfamA : ∀ kv ∈ applyBatch s puts dels, merFam kv ∨ mrefFam kv := by
    intro kv hkv
    rcases mem_applyBatch_sub s puts dels kv hkv with hin | hin
    · exact inv.fam kv hin
    · obtain ⟨x, mr, hkv2⟩ := hputs kv hin
      subst hkv2
      exact Or.inr ⟨x, mr, rfl, rfl⟩
  -- a surviving live row naming A belongs to `s` and lies outside group `e`
  have hsurv : ∀ kv, kv ∈ applyBatch s puts dels → rowIsA A kv = true →
      kv ∈ s ∧ kv.1 ∉ dels := by
    intro kv hkv hrow
    have hget := mem_sget _ kv.1 kv.2 ndA (by simpa using hkv)
    rw [sget_applyBatch] at hget
    by_cases hkdel : kv.1 ∈ dels
    · rw [if_pos hkdel] at hget
      exact absurd hget (by simp)
    · rw [if_neg hkdel] at hget
      cases hlp : lastPut puts kv.1 with
      | some w =>
          rw [hlp] at hget
          exfalso
          obtain ⟨x, mr, hw2⟩ := hputs (kv.1, w) (lastPut_mem puts kv.1 w hlp)
          have hv : kv.2 = w := (Option.some.inj hget).symm
          have : kv.2 = Val.mref mr := by
            rw [hv]
            exact congrArg Prod.snd hw2
          unfold rowIsA at hrow
          rw [this] at hrow
          exact Bool.noConfusion hrow
      | none =>
          rw [hlp] at hget
          exact ⟨by simpa using sget_mem s kv.1 kv.2 hget, hkdel⟩
  -- a live row of `s` outside group `e` survives into the new store
  have hkeep : ∀ kv, kv ∈ s → merFam kv → kv.1 ∉ dels →
      kv ∈ applyBatch s puts dels := by
    intro kv hin hfam hkdel
    obtain ⟨e2, kind2, m2, he2, hk2, hv2⟩ := hfam
    have hget : sget s kv.1 = some kv.2 := mem_sget s kv.1 kv.2 inv.nd (by simpa using hin)
    have hlp : lastPut puts kv.1 = none := by
      refine lastPut_eq_none puts kv.1 ?_
      intro pv hpv
      obtain ⟨x3, mr3, hpv2⟩ := hputs pv hpv
      rw [hpv2, hk2]
      intro hcon
      exact kMer_ne_kMref e2 kind2 x3 hcon.symm
    have hget2 : sget (applyBatch s puts dels) kv.1 = some kv.2 := by
      rw [sget_applyBatch, if_neg hkdel, hlp]
      exact hget
    simpa using sget_mem _ kv.1 kv.2 hget2
  -- rows of `s` naming A: group facts
  have hrowmem : ∀ kv, kv ∈ s → rowIsA A kv = true → merFam kv := by
    intro kv hin hrow
    rcases inv.fam kv hin with h1 | h1
    · exact h1
    · obtain ⟨x, mr, _, hv2⟩ := h1
      unfold rowIsA at hrow
      rw [hv2] at hrow
      exact absurd hrow Bool.noConfusion
  have hgroup : ∀ kv, kv ∈ s → merFam kv →
      (kv.1 ∈ dels ↔ (merPre e).isPrefixOf kv.1 = true) := by
    intro kv hin hfam
    constructor
    · intro hkd
      obtain ⟨kind3, hk3⟩ := hdelmer kv.1 hkd
      rw [hk3]
      exact (merPre_isPre_kMer e e kind3 he he).mpr rfl
    · intro hpre
      have hkvrows : kv ∈ scanPref s (merPre e) :=
        (mem_scanPref s _ kv).mpr ⟨hin, hpre⟩
      rw [hdels]
      exact List.mem_map.mpr ⟨kv, hkvrows, rfl⟩
  cases hany : (scanPref s (merPre e)).any (rowIsA A) with
  | true =>
      obtain ⟨kv0, hkv0, hrow0⟩ := List.any_eq_true.mp hany
      obtain ⟨kind0, m0, hk0, _⟩ := hshape kv0 hkv0
      have hkv0s : kv0 ∈ s := List.Sublist.mem hkv0 (scanPref_sublist s (merPre e))
      have hedata : e.data ∈ liveEvts s A := by
        refine (mem_liveEvts s A e.data).mpr ⟨kv0, hkv0s, hrow0, ?_⟩
        rw [hk0]
        exact evtOf_kMer e kind0 he
      have hcardpos : 0 < (liveEvts s A).card :=
        Finset.card_pos.mpr ⟨e.data, hedata⟩
      have hrcpos : 0 < rcOf s A := by
        have h1 : (0 : Int) < ((liveEvts s A).card : Int) := by exact_mod_cast hcardpos
        exact lt_of_lt_of_le h1 inv.cnt
      obtain ⟨mr, hg, hrc⟩ := rcOf_pos_shape s A hrcpos
      have hl := hA A mr hg hany
      have hrc2 : rcOf (applyBatch s puts dels) A = rcOf s A - 1 := by
        unfold rcOf
        rw [sget_applyBatch, if_neg (hdelnotmref A), hl, hg]
        simp only []
        rw [satSub1_of_pos mr.refcount (by rw [hrc]; exact hrcpos)]
      have hlive : liveEvts (applyBatch s puts dels) A = (liveEvts s A).erase e.data := by
        ext x
        constructor
        · intro hx
          obtain ⟨kv, hkv, hrow, hevt⟩ := (mem_liveEvts _ _ _).mp hx
          obtain ⟨hins, hkdel⟩ := hsurv kv hkv hrow
          refine Finset.mem_erase.mpr ⟨?_, (mem_liveEvts s A x).mpr ⟨kv, hins, hrow, hevt⟩⟩
          intro hxe
          obtain ⟨e2, kind2, m2, he2, hk2, hv2⟩ := hrowmem kv hins hrow
          have hxval : x = e2.data := by
            rw [← hevt, hk2]
            exact evtOf_kMer e2 kind2 he2
          have he2e : e2 = e := string_data_inj e2 e (by rw [← hxval, hxe])
          have hpre : (merPre e).isPrefixOf kv.1 = true := by
            rw [hk2, he2e]
            exact (merPre_isPre_kMer e e kind2 he he).mpr rfl
          exact hkdel ((hgroup kv hins (hrowmem kv hins hrow)).mpr hpre)
        · intro hx
          obtain ⟨hxne, hxin⟩ := Finset.mem_erase.mp hx
          obtain ⟨kv, hins, hrow, hevt⟩ := (mem_liveEvts s A x).mp hxin
          have hfamkv := hrowmem kv hins hrow
          obtain ⟨e2, kind2, m2, he2, hk2, hv2⟩ := hfamkv
          have hkdel : kv.1 ∉ dels := by
            intro hkd
            have hpre := (hgroup kv hins (hrowmem kv hins hrow)).mp hkd
            rw [hk2] at hpre
            have he2e : e = e2 := (merPre_isPre_kMer e e2 kind2 he he2).mp hpre
            apply hxne
            rw [← hevt, hk2, ← he2e]
            exact evtOf_kMer e kind2 he
          exact (mem_liveEvts _ _ _).mpr
            ⟨kv, hkeep kv hins (hrowmem kv hins hrow) hkdel, hrow, hevt⟩
      have hcard : (liveEvts (applyBatch s puts dels) A).card =
          (liveEvts s A).card - 1 := by
        rw [hlive]
        exact Finset.card_erase_of_mem hedata
      have hcard2 : ((liveEvts (applyBatch s puts dels) A).card : Int) =
          ((liveEvts s A).card : Int) - 1 := by
        rw [hcard, Nat.cast_sub hcardpos]
        simp
      rw [happ]
      refine ⟨⟨ndA, hfamA, ?_⟩, ?_⟩
      · rw [hcard2, hrc2]
        have := inv.cnt
        omega
      · rw [htouch, hany, if_pos rfl, hrc2]
  | false =>
      have hl : lastPut puts (kMref A) = none := hA2 A hany
      have hrc2 : rcOf (applyBatch s puts dels) A = rcOf s A := by
        unfold rcOf
        rw [sget_applyBatch, if_neg (hdelnotmref A), hl]
      have hlive : liveEvts (applyBatch s puts dels) A = liveEvts s A := by
        ext x
        constructor
        · intro hx
          obtain ⟨kv, hkv, hrow, hevt⟩ := (mem_liveEvts _ _ _).mp hx
          obtain ⟨hins, _⟩ := hsurv kv hkv hrow
          exact (mem_liveEvts s A x).mpr ⟨kv, hins, hrow, hevt⟩
        · intro hx
          obtain ⟨kv, hins, hrow, hevt⟩ := (mem_liveEvts s A x).mp hx
          have hkdel : kv.1 ∉ dels := by
            intro hkd
            have hpre := (hgroup kv hins (hrowmem kv hins hrow)).mp hkd
            have hkvrows : kv ∈ scanPref s (merPre e) :=
              (mem_scanPref s _ kv).mpr ⟨hins, hpre⟩
            have : (scanPref s (merPre e)).any (rowIsA A) = true :=
              List.any_eq_true.mpr ⟨kv, hkvrows, hrow⟩
            rw [this] at hany
            exact Bool.noConfusion hany
          exact (mem_liveEvts _ _ _).mpr
            ⟨kv, hkeep kv hins (hrowmem kv hins hrow) hkdel, hrow, hevt⟩
      rw [happ]
      refine ⟨⟨ndA, hfamA, ?_⟩, ?_⟩
      · rw [hlive, hrc2]
        exact inv.cnt
      · rw [htouch, hany, hrc2]
        simp

theorem insert_step (A e r u : String) (mxcs : List (String × Bool × String))
    (now : Nat) (s : Store) (inv : InvS A s) (he : ':' ∉ e.data)
    (hroom : insMentions (RetOp.ins e r u mxcs now) A = true → rcOf s A < i64Max) :
    InvS A (insert_mxcs_on_event e r u mxcs now s) ∧
    rcOf (insert_mxcs_on_event e r u mxcs now s) A =
      rcOf s A +
        (if insMentions (RetOp.ins e r u mxcs now) A = true then 1 else 0) := by
  have hment : insMentions (RetOp.ins e r u mxcs now) A =
      mxcs.any (fun t => t.1 == A) := rfl
  by_cases hemp : mxcs.isEmpty
  · have hs : insert_mxcs_on_event e r u mxcs now s = s := by
      unfold insert_mxcs_on_event
      rw [if_pos hemp]
    have hm : mxcs.any (fun t => t.1 == A) = false := by
      cases mxcs with
      | nil => rfl
      | cons hd tl => simp [List.isEmpty] at hemp
    rw [hs, hment, hm]
    refine ⟨inv, ?_⟩
    simp
  · have hs : insert_mxcs_on_event e r u mxcs now s =
        applyBatch s (insertPuts s e r u now mxcs) [] := by
      unfold insert_mxcs_on_event
      rw [if_neg hemp]
    rw [hs, hment]
    have hrc : rcOf (applyBatch s (insertPuts s e r u now mxcs) []) A =
        rcOf s A + (if mxcs.any (fun t => t.1 == A) = true then 1 else 0) := by
      unfold rcOf
      rw [sget_applyBatch]
      simp only [List.not_mem_nil, if_false]
      cases hany : mxcs.any (fun t => t.1 == A) with
      | false =>
          rw [lastPut_insertPuts_none s e r u now mxcs A hany]
          simp
      | true =>
          obtain ⟨loc, hl⟩ := lastPut_insertPuts_some s e r u now mxcs A hany
          rw [hl]
          unfold newMref
          cases hg : sget s (kMref A) with
          | none => simp
          | some v =>
              cases v with
              | mref m =>
                  have hlt : m.refcount < i64Max := by
                    have := hroom (by rw [hment, hany])
                    unfold rcOf at this
                    rw [hg] at this
                    exact this
                  simp [satAdd1_of_lt m.refcount hlt]
              | mer m => simp
              | cand c => simp
              | pend p => simp
              | prefs p => simp
              | corrupt => simp
    refine ⟨?_, hrc⟩
    have hsub : ∀ x ∈ liveEvts (applyBatch s (insertPuts s e r u now mxcs) []) A,
        x ∈ liveEvts s A ∨ (x = e.data ∧ mxcs.any (fun t => t.1 == A) = true) := by
      intro x hx
      obtain ⟨kv, hkv, hrow, hevt⟩ := (mem_liveEvts _ A x).mp hx
      rcases mem_applyBatch_sub s _ [] kv hkv with hin | hin
      · exact Or.inl ((mem_liveEvts s A x).mpr ⟨kv, hin, hrow, hevt⟩)
      · rcases insertPuts_mem s e r u now mxcs kv hin with h1 | h1
        · obtain ⟨kind, m, hkv2, hany⟩ := h1
          subst hkv2
          have hmxc : m.mxc = A := by
            unfold rowIsA at hrow
            simpa using hrow
          refine Or.inr ⟨?_, by rw [← hmxc]; exact hany⟩
          rw [← hevt]
          exact evtOf_kMer e kind he
        · obtain ⟨x2, loc2, hkv2, _⟩ := h1
          subst hkv2
          unfold rowIsA at hrow
          simp at hrow
    constructor
    · exact keysNodup_applyBatch s _ [] inv.nd
    · intro kv hkv
      rcases mem_applyBatch_sub s _ [] kv hkv with hin | hin
      · exact inv.fam kv hin
      · rcases insertPuts_mem s e r u now mxcs kv hin with h1 | h1
        · obtain ⟨kind, m, hkv2, _⟩ := h1
          subst hkv2
          exact Or.inl ⟨e, kind, m, he, rfl, rfl⟩
        · obtain ⟨x2, loc2, hkv2, _⟩ := h1
          subst hkv2
          exact Or.inr ⟨x2, newMref s x2 loc2 now, rfl, rfl⟩
    · rw [hrc]
      cases hany : mxcs.any (fun t => t.1 == A) with
      | false =>
          have hsub2 : liveEvts (applyBatch s (insertPuts s e r u now mxcs) []) A ⊆
              liveEvts s A := by
            intro x hx
            rcases hsub x hx with h1 | h1
            · exact h1
            · rw [hany] at h1
              exact absurd h1.2 Bool.noConfusion
          have hcard := Finset.card_le_card hsub2
          have := inv.cnt
          rw [if_neg (fun hcon => Bool.noConfusion hcon), add_zero]
          have hc2 : ((liveEvts (applyBatch s (insertPuts s e r u now mxcs) []) A).card : Int) ≤
              ((liveEvts s A).card : Int) := by exact_mod_cast hcard
          omega
      | true =>
          have hsub2 : liveEvts (applyBatch s (insertPuts s e r u now mxcs) []) A ⊆
              insert e.data (liveEvts s A) := by
            intro x hx
            rcases hsub x hx with h1 | h1
            · exact Finset.mem_insert_of_mem h1
            · rw [h1.1]; exact Finset.mem_insert_self _ _
          have hcard := Finset.card_le_card hsub2
          have hcard2 := Finset.card_insert_le e.data (liveEvts s A)
          have := inv.cnt
          rw [if_pos rfl]
          have hc2 : ((liveEvts (applyBatch s (insertPuts s e r u now mxcs) []) A).card : Int) ≤
              ((liveEvts s A).card : Int) + 1 := by exact_mod_cast le_trans hcard hcard2
          omega

theorem insCount_cons (op : RetOp) (rest : List RetOp) (A : String) :
    insCount (op :: rest) A =
      (if insMentions op A = true then 1 else 0) + insCount rest A := by
  unfold insCount
  rw [List.filter_cons]
  by_cases h : insMentions op A = true
  · simp [h]
    omega
  · simp [h]

theorem effDec_cons (s : Store) (op : RetOp) (rest : List RetOp) (A : String) :
    effDec s (op :: rest) A =
      (if decTouches s op A = true then 1 else 0) + effDec (applyOp s op) rest A := rfl

theorem runOps_cons (s : Store) (op : RetOp) (rest : List RetOp) :
    runOps s (op :: rest) = runOps (applyOp s op) rest := rfl

theorem decTouches_ins (s : Store) (e r u : String)
    (mxcs : List (String × Bool × String)) (now : Nat) (A : String) :
    decTouches s (RetOp.ins e r u mxcs now) A = false := rfl

theorem insMentions_dec (e : String) (p : RetentionPolicy) (now : Nat) (A : String) :
    insMentions (RetOp.dec e p now) A = false := rfl

theorem runOps_aux (A : String) :
    ∀ (ops : List RetOp) (s : Store), InvS A s → (∀ op ∈ ops, opWf op) →
      rcOf s A + (insCount ops A : Int) ≤ i64Max →
      InvS A (runOps s ops) ∧
      rcOf (runOps s ops) A =
        rcOf s A + (insCount ops A : Int) - (effDec s ops A : Int) := by
  intro ops
  induction ops with
  | nil =>
    intro s inv _ _
    refine ⟨inv, ?_⟩
    simp [runOps, insCount, effDec]
  | cons op rest ih =>
    intro s inv hwf hbound
    have hwfop : opWf op := hwf op (List.mem_cons_self _ _)
    have hwfrest : ∀ o ∈ rest, opWf o := fun o ho => hwf o (List.mem_cons_of_mem _ ho)
    rw [runOps_cons, insCount_cons, effDec_cons]
    cases op with
    | ins e r u mxcs now =>
        have hroom : insMentions (RetOp.ins e r u mxcs now) A = true →
            rcOf s A < i64Max := by
          intro hm
          rw [insCount_cons, hm, if_pos rfl] at hbound
          have h0 : (0 : Int) ≤ (insCount rest A : Int) := Int.ofNat_nonneg _
          push_cast at hbound
          omega
        obtain ⟨inv2, hrc⟩ := insert_step A e r u mxcs now s inv hwfop hroom
        have happ : applyOp s (RetOp.ins e r u mxcs now) =
            insert_mxcs_on_event e r u mxcs now s := rfl
        rw [← happ] at inv2 hrc
        have hbound2 : rcOf (applyOp s (RetOp.ins e r u mxcs now)) A +
            (insCount rest A : Int) ≤ i64Max := by
          rw [hrc]
          rw [insCount_cons] at hbound
          by_cases hm : insMentions (RetOp.ins e r u mxcs now) A = true
          · rw [if_pos hm] at hbound ⊢
            push_cast at hbound
            omega
          · rw [if_neg hm] at hbound ⊢
            push_cast at hbound
            omega
        obtain ⟨inv3, heq⟩ := ih (applyOp s (RetOp.ins e r u mxcs now)) inv2 hwfrest hbound2
        refine ⟨inv3, ?_⟩
        rw [heq, hrc, decTouches_ins]
        by_cases hm : insMentions (RetOp.ins e r u mxcs now) A = true
        · simp only [hm, eq_self_iff_true, if_true, Bool.false_eq_true, if_false]
          push_cast
          ring
        · have hm2 : insMentions (RetOp.ins e r u mxcs now) A = false := by
            cases hq : insMentions (RetOp.ins e r u mxcs now) A
            · rfl
            · exact absurd hq hm
          simp only [hm2, Bool.false_eq_true, if_false]
          push_cast
          ring
    | dec e policy now =>
        obtain ⟨inv2, hrc⟩ := dec_step A e policy now s inv hwfop
        have hbound2 : rcOf (applyOp s (RetOp.dec e policy now)) A +
            (insCount rest A : Int) ≤ i64Max := by
          rw [hrc]
          rw [insCount_cons, insMentions_dec] at hbound
          rw [if_neg (fun hcon : (false = true) => Bool.noConfusion hcon)] at hbound
          by_cases ht : decTouches s (RetOp.dec e policy now) A = true
          · rw [if_pos ht]
            push_cast at hbound ⊢
            omega
          · rw [if_neg ht]
            push_cast at hbound ⊢
            omega
        obtain ⟨inv3, heq⟩ := ih (applyOp s (RetOp.dec e policy now)) inv2 hwfrest hbound2
        refine ⟨inv3, ?_⟩
        rw [heq, hrc, insMentions_dec]
        by_cases ht : decTouches s (RetOp.dec e policy now) A = true
        · simp only [ht, eq_self_iff_true, if_true, Bool.false_eq_true, if_false]
          push_cast
          ring
        · have ht2 : decTouches s (RetOp.dec e policy now) A = false := by
            cases hq : decTouches s (RetOp.dec e policy now) A
            · rfl
            · exact absurd hq ht
          simp only [ht2, Bool.false_eq_true, if_false]
          push_cast
          ring

theorem InvS_empty (A : String) : InvS A ([] : Store) := by
  refine ⟨?_, ?_, ?_⟩
  · simp [keysNodup]
  · intro kv h
    simp at h
  · simp [liveEvts, rcOf, sget]

/-- C1 (counterexample to the claim as stated): one `insert_mxcs_on_event`
call whose refs list the same media identifier under two different
reference kinds performs two insert increments and no decrement, so the
claim predicts a stored refcount of 2 (`specRefcount`); the code stores
refcount 1, because both occurrences read the pre-batch value with the
blocking get and the two batched puts of the same `mref:` key collapse. -/
theorem C1_counterexample :
    rcOf (runOps []
      [RetOp.ins "E" "R" "U" [("A", true, "k1"), ("A", true, "k2")] 5]) "A" = 1 ∧
    specRefcount []
      [RetOp.ins "E" "R" "U" [("A", true, "k1"), ("A", true, "k2")] 5] "A" = 2 ∧
    rcOf (runOps []
      [RetOp.ins "E" "R" "U" [("A", true, "k1"), ("A", true, "k2")] 5] ) "A" ≠
    specRefcount []
      [RetOp.ins "E" "R" "U" [("A", true, "k1"), ("A", true, "k2")] 5] "A" := by
  decide

/-- C1 (amended): over any sequence of `insert_mxcs_on_event` and
`decrement_refcount_on_redaction` operations from the empty store — with
colon-free event identifiers, so that `mer:<event_id>:<kind>` keys group
unambiguously, and fewer than `i64::MAX` inserts of the identifier — the
stored refcount of a media identifier equals the number of insert calls
that mention it (each call counting once, regardless of duplicate
occurrences in its refs list) minus the number of decrement calls that
find a live media-event ref naming it; that difference is never negative,
so the clamp at 0 is never exercised and no decrement ever drives the
refcount below 0. -/
theorem C1_refcount_accounting (ops : List RetOp) (A : String)
    (hwf : ∀ op ∈ ops, opWf op)
    (hbound : (insCount ops A : Int) ≤ i64Max) :
    effDec [] ops A ≤ insCount ops A ∧
    rcOf (runOps [] ops) A = (insCount ops A : Int) - (effDec [] ops A : Int) ∧
    0 ≤ rcOf (runOps [] ops) A := by
  have hrc0 : rcOf ([] : Store) A = 0 := rfl
  obtain ⟨invf, heq⟩ := runOps_aux A ops [] (InvS_empty A) hwf
    (by rw [hrc0]; simpa using hbound)
  rw [hrc0] at heq
  have hnn : 0 ≤ rcOf (runOps [] ops) A := by
    have h1 : (0 : Int) ≤ ((liveEvts (runOps [] ops) A).card : Int) :=
      Int.ofNat_nonneg _
    exact le_trans h1 invf.cnt
  refine ⟨?_, ?_, hnn⟩
  · have h2 := hnn
    rw [heq] at h2
    omega
  · rw [heq]
    ring

/-- C1 witness: the amended accounting theorem evaluated on one insert of
`A` followed by the redaction of its event. -/
theorem C1_refcount_accounting_witness :
    (∀ op ∈ [RetOp.ins "E" "R" "U" [("A", true, "k")] 3,
             RetOp.dec "E" RetentionPolicy.AskSender 7], opWf op) ∧
    ((insCount [RetOp.ins "E" "R" "U" [("A", true, "k")] 3,
                RetOp.dec "E" RetentionPolicy.AskSender 7] "A" : Int) ≤ i64Max) ∧
    (effDec [] [RetOp.ins "E" "R" "U" [("A", true, "k")] 3,
                RetOp.dec "E" RetentionPolicy.AskSender 7] "A" ≤
      insCount [RetOp.ins "E" "R" "U" [("A", true, "k")] 3,
                RetOp.dec "E" RetentionPolicy.AskSender 7] "A" ∧
     rcOf (runOps [] [RetOp.ins "E" "R" "U" [("A", true, "k")] 3,
                      RetOp.dec "E" RetentionPolicy.AskSender 7]) "A" =
       ((insCount [RetOp.ins "E" "R" "U" [("A", true, "k")] 3,
                   RetOp.dec "E" RetentionPolicy.AskSender 7] "A" : Int) -
        (effDec [] [RetOp.ins "E" "R" "U" [("A", true, "k")] 3,
                    RetOp.dec "E" RetentionPolicy.AskSender 7] "A" : Int)) ∧
     0 ≤ rcOf (runOps [] [RetOp.ins "E" "R" "U" [("A", true, "k")] 3,
                          RetOp.dec "E" RetentionPolicy.AskSender 7]) "A") :=
  ⟨by decide, by decide,
   C1_refcount_accounting
     [RetOp.ins "E" "R" "U" [("A", true, "k")] 3,
      RetOp.dec "E" RetentionPolicy.AskSender 7] "A" (by decide) (by decide)⟩

/-- C2 (counterexample to the claim as stated): with a stored refcount of
5, inserting an event whose refs list the same media identifier under two
different reference kinds leaves the refcount at 6, not 5 + 2: both
occurrences read the pre-batch value 5 with the blocking get, and the
second batched put of the same `mref:` key overwrites the first. -/
theorem C2_counterexample :
    sget (insert_mxcs_on_event "E" "R" "U" [("A", true, "k1"), ("A", true, "k2")] 9
      [(kMref "A", Val.mref ⟨5, true, 0, 0⟩)]) (kMref "A") =
      some (Val.mref ⟨6, true, 0, 9⟩) ∧ (6 : Int) ≠ 5 + 2 := by
  decide

/-- C2 (amended): a call to `insert_mxcs_on_event` whose refs mention a
media identifier — once, or several times under different reference
kinds — leaves that identifier's refcount exactly one greater than before
the call (all occurrences read the pre-batch value, and the batched
writes of the same `mref:` key collapse to the last one). -/
theorem C2_single_increment (e r u : String) (mxcs : List (String × Bool × String))
    (now : Nat) (s : Store) (A : String) (v : MediaRef)
    (hmention : mxcs.any (fun t => t.1 == A) = true)
    (hg : sget s (kMref A) = some (Val.mref v)) (hlt : v.refcount < i64Max) :
    rcOf (insert_mxcs_on_event e r u mxcs now s) A = v.refcount + 1 := by
  have hemp : mxcs.isEmpty = false := by
    cases mxcs with
    | nil => simp at hmention
    | cons hd tl => rfl
  have hs : insert_mxcs_on_event e r u mxcs now s =
      applyBatch s (insertPuts s e r u now mxcs) [] := by
    unfold insert_mxcs_on_event
    rw [hemp]
    rw [if_neg (fun hcon : (false = true) => Bool.noConfusion hcon)]
  obtain ⟨loc, hl⟩ := lastPut_insertPuts_some s e r u now mxcs A hmention
  unfold rcOf
  rw [hs, sget_applyBatch]
  simp only [List.not_mem_nil, if_false]
  rw [hl]
  unfold newMref
  rw [hg]
  simp only []
  rw [satAdd1_of_lt v.refcount hlt]

/-- C2 witness: the amended single-increment theorem evaluated on a store
holding refcount 5 and an insert listing the identifier twice. -/
theorem C2_single_increment_witness :
    ([("A", true, "k1"), ("A", true, "k2")].any (fun t => t.1 == "A") = true) ∧
    (sget [(kMref "A", Val.mref ⟨5, true, 0, 0⟩)] (kMref "A") =
      some (Val.mref ⟨5, true, 0, 0⟩)) ∧
    ((5 : Int) < i64Max) ∧
    rcOf (insert_mxcs_on_event "E" "R" "U" [("A", true, "k1"), ("A", true, "k2")] 9
      [(kMref "A", Val.mref ⟨5, true, 0, 0⟩)]) "A" = (5 : Int) + 1 :=
  ⟨by decide, by decide, by decide,
   C2_single_increment "E" "R" "U" [("A", true, "k1"), ("A", true, "k2")] 9
     [(kMref "A", Val.mref ⟨5, true, 0, 0⟩)] "A" ⟨5, true, 0, 0⟩
     (by decide) (by decide) (by decide)⟩

/-- C4 (counterexample to the claim as stated): `RetentionPolicy.from_str`
maps `delete_if_unreferenced` to `Keep` through its catch-all arm, not to
the policy of `ask_sender`; the alias pairs are not recognized. -/
theorem C4_counterexample :
    RetentionPolicy.from_str "delete_if_unreferenced" = RetentionPolicy.Keep ∧
    RetentionPolicy.from_str "ask_sender" = RetentionPolicy.AskSender ∧
    RetentionPolicy.from_str "delete_if_unreferenced" ≠
      RetentionPolicy.from_str "ask_sender" := by
  decide

/-- C4 (amended): parsing the `media_retention_on_redaction` string
recognizes exactly `ask_sender` and `delete_always`; every other string —
including the would-be aliases `delete_if_unreferenced` and
`force_delete_local`, and `keep` itself — yields the default policy
`Keep`. -/
theorem C4_from_str (s : String) (h1 : s ≠ "ask_sender")
    (h2 : s ≠ "delete_always") :
    RetentionPolicy.from_str s = RetentionPolicy.Keep ∧
    RetentionPolicy.from_str "ask_sender" = RetentionPolicy.AskSender ∧
    RetentionPolicy.from_str "delete_always" = RetentionPolicy.DeleteAlways := by
  refine ⟨?_, rfl, rfl⟩
  unfold RetentionPolicy.from_str
  split <;> simp_all

/-- C4 witness: the amended parsing theorem evaluated at
`delete_if_unreferenced`. -/
theorem C4_from_str_witness :
    ("delete_if_unreferenced" ≠ "ask_sender") ∧
    ("delete_if_unreferenced" ≠ "delete_always") ∧
    (RetentionPolicy.from_str "delete_if_unreferenced" = RetentionPolicy.Keep ∧
     RetentionPolicy.from_str "ask_sender" = RetentionPolicy.AskSender ∧
     RetentionPolicy.from_str "delete_always" = RetentionPolicy.DeleteAlways) :=
  ⟨by decide, by decide,
   C4_from_str "delete_if_unreferenced" (by decide) (by decide)⟩

/-- C7: `queue_media_for_deletion` keys the candidate by the media
identifier alone (`qdel:<mxc>`): on a store with one entry per key it
preserves that shape, so every media identifier has at most one `qdel:`
row; the written candidate carries a fresh `enqueued_ts`, so re-enqueueing
an already queued identifier overwrites the row and resets its grace
timer; all other keys are untouched. -/
theorem C7_queue_single_candidate (s : Store) (hnd : keysNodup s) (mxc : String)
    (owner : Option String) (aw : Bool) (n c1 c2 a : Option String) (enc : Bool)
    (now : Nat) :
    keysNodup (queue_media_for_deletion mxc owner aw n c1 c2 a enc now s) ∧
    (∀ x, countKey (queue_media_for_deletion mxc owner aw n c1 c2 a enc now s)
      (kQueue x) ≤ 1) ∧
    sget (queue_media_for_deletion mxc owner aw n c1 c2 a enc now s) (kQueue mxc) =
      some (Val.cand ⟨mxc, now, owner, aw, n, c1, c2, a, enc⟩) ∧
    (∀ k, k ≠ kQueue mxc →
      sget (queue_media_for_deletion mxc owner aw n c1 c2 a enc now s) k =
        sget s k) := by
  unfold queue_media_for_deletion
  refine ⟨keysNodup_sput s _ _ hnd, ?_, ?_, ?_⟩
  · intro x
    exact countKey_le_one _ _ (keysNodup_sput s _ _ hnd)
  · rw [sget_sput]
    simp
  · intro k hk
    rw [sget_sput, if_neg hk]

/-- C7 witness: the single-candidate theorem evaluated on the empty store,
queueing then re-queueing one identifier. -/
theorem C7_queue_single_candidate_witness :
    keysNodup ([] : Store) ∧
    (keysNodup (queue_media_for_deletion "mxc://s/a" (some "@u:s") true
        none none none none false 42 []) ∧
     (∀ x, countKey (queue_media_for_deletion "mxc://s/a" (some "@u:s") true
        none none none none false 42 []) (kQueue x) ≤ 1) ∧
     sget (queue_media_for_deletion "mxc://s/a" (some "@u:s") true
        none none none none false 42 []) (kQueue "mxc://s/a") =
       some (Val.cand ⟨"mxc://s/a", 42, some "@u:s", true,
         none, none, none, none, false⟩) ∧
     (∀ k, k ≠ kQueue "mxc://s/a" →
       sget (queue_media_for_deletion "mxc://s/a" (some "@u:s") true
          none none none none false 42 []) k = sget ([] : Store) k)) :=
  ⟨by decide,
   C7_queue_single_candidate [] (by decide) "mxc://s/a" (some "@u:s") true
     none none none none false 42⟩

/-- C9: `get_user_prefs` is total and never surfaces an error — an absent
`prefs:` record and a record that fails to deserialize both yield the
default preferences (both auto-delete flags false), while a decodable
record is returned as stored; the function performs no writes. -/
theorem C9_get_user_prefs_total (s : Store) (u : String) :
    (sget s (kPrefs u) = none → get_user_prefs s u = ⟨false, false⟩) ∧
    (∀ v, sget s (kPrefs u) = some v → (∀ p, v ≠ Val.prefs p) →
      get_user_prefs s u = ⟨false, false⟩) ∧
    (∀ p, sget s (kPrefs u) = some (Val.prefs p) → get_user_prefs s u = p) := by
  refine ⟨?_, ?_, ?_⟩
  · intro h
    unfold get_user_prefs
    rw [h]
    rfl
  · intro v h hnp
    unfold get_user_prefs
    rw [h]
    cases v with
    | prefs p => exact absurd rfl (hnp p)
    | mref m => rfl
    | mer m => rfl
    | cand c => rfl
    | pend p => rfl
    | corrupt => rfl
  · intro p h
    unfold get_user_prefs
    rw [h]

theorem process_candidate_auto (env : Env) (policy : RetentionPolicy)
    (einfo : Option EventInfo) (cand : RetentionCandidate) (now : Nat)
    (s : Store) (u : String) (hsnd : cand.sender = some u)
    (hflag : (if cand.from_encrypted_room then
        (get_user_prefs s u).auto_delete_encrypted
      else (get_user_prefs s u).auto_delete_unencrypted) = true) :
    process_candidate env policy einfo cand now s =
      queue_media_for_deletion cand.mxc (cand.sender.bind parseUserId) false
        none none none none cand.from_encrypted_room now s := by
  unfold process_candidate
  rw [hsnd]
  simp only []
  rw [if_pos hflag]

/-- C3 (counterexample to the claim as stated): a redaction candidate
whose sender has the matching auto-delete flag set does not have its blob
and `mref:` row removed during `retention_decrement_on_redaction` — the
per-candidate processing only enqueues a `qdel:` candidate (with
`awaiting_confirmation = false`), leaving the `mref:` row in place; the
blob store is not touched (the delete subroutine is not invoked). -/
theorem C3_counterexample :
    sget (process_candidate
        ⟨fun _ => true, fun _ => none, fun _ => UserRetentionPreference.Ask,
         fun _ _ => some "note", fun _ _ _ => some "rid"⟩
        RetentionPolicy.AskSender none
        ⟨"mxc://s/a", some "!r:s", some "@u:s", false⟩ 42
        [(kPrefs "@u:s", Val.prefs ⟨true, false⟩),
         (kMref "mxc://s/a", Val.mref ⟨0, true, 0, 0⟩)])
      (kMref "mxc://s/a") = some (Val.mref ⟨0, true, 0, 0⟩) ∧
    sget (process_candidate
        ⟨fun _ => true, fun _ => none, fun _ => UserRetentionPreference.Ask,
         fun _ _ => some "note", fun _ _ _ => some "rid"⟩
        RetentionPolicy.AskSender none
        ⟨"mxc://s/a", some "!r:s", some "@u:s", false⟩ 42
        [(kPrefs "@u:s", Val.prefs ⟨true, false⟩),
         (kMref "mxc://s/a", Val.mref ⟨0, true, 0, 0⟩)])
      (kQueue "mxc://s/a") =
      some (Val.cand ⟨"mxc://s/a", 42, some "@u:s", false,
        none, none, none, none, false⟩) := by
  decide

/-- C3 (amended): when the candidate's resolved sender has the auto-delete
flag matching `from_encrypted_room` set, the candidate evaluator is not
consulted — the result is the same for every environment of evaluator
oracles — and the candidate is enqueued directly via
`queue_media_for_deletion` with `awaiting_confirmation = false` and no
notification; the `mref:` row is left unchanged and the blob is not
deleted at this point (reclamation is deferred to the worker). -/
theorem C3_auto_delete_enqueues (env env2 : Env) (policy : RetentionPolicy)
    (einfo : Option EventInfo) (cand : RetentionCandidate) (now : Nat)
    (s : Store) (u : String) (hsnd : cand.sender = some u)
    (hflag : (if cand.from_encrypted_room then
        (get_user_prefs s u).auto_delete_encrypted
      else (get_user_prefs s u).auto_delete_unencrypted) = true) :
    process_candidate env policy einfo cand now s =
      queue_media_for_deletion cand.mxc (cand.sender.bind parseUserId) false
        none none none none cand.from_encrypted_room now s ∧
    process_candidate env policy einfo cand now s =
      process_candidate env2 policy einfo cand now s ∧
    sget (process_candidate env policy einfo cand now s) (kMref cand.mxc) =
      sget s (kMref cand.mxc) := by
  have h1 := process_candidate_auto env policy einfo cand now s u hsnd hflag
  have h2 := process_candidate_auto env2 policy einfo cand now s u hsnd hflag
  refine ⟨h1, h1.trans h2.symm, ?_⟩
  rw [h1]
  unfold queue_media_for_deletion
  rw [sget_sput, if_neg ?_]
  intro hcon
  exact kQueue_ne_kMref cand.mxc cand.mxc hcon.symm

/-- C3 witness: the amended theorem evaluated with two different oracle
environments on a store carrying the sender's auto-delete flag. -/
theorem C3_auto_delete_enqueues_witness :
    ((⟨"mxc://s/a", some "!r:s", some "@u:s", false⟩ :
        RetentionCandidate).sender = some "@u:s") ∧
    ((if (⟨"mxc://s/a", some "!r:s", some "@u:s", false⟩ :
          RetentionCandidate).from_encrypted_room then
        (get_user_prefs [(kPrefs "@u:s", Val.prefs ⟨true, false⟩)]
          "@u:s").auto_delete_encrypted
      else
        (get_user_prefs [(kPrefs "@u:s", Val.prefs ⟨true, false⟩)]
          "@u:s").auto_delete_unencrypted) = true) ∧
    (process_candidate
        ⟨fun _ => true, fun _ => none, fun _ => UserRetentionPreference.Ask,
         fun _ _ => some "note", fun _ _ _ => some "rid"⟩
        RetentionPolicy.AskSender none
        ⟨"mxc://s/a", some "!r:s", some "@u:s", false⟩ 42
        [(kPrefs "@u:s", Val.prefs ⟨true, false⟩)] =
      queue_media_for_deletion "mxc://s/a"
        ((some "@u:s").bind parseUserId) false none none none none false 42
        [(kPrefs "@u:s", Val.prefs ⟨true, false⟩)] ∧
     process_candidate
        ⟨fun _ => true, fun _ => none, fun _ => UserRetentionPreference.Ask,
         fun _ _ => some "note", fun _ _ _ => some "rid"⟩
        RetentionPolicy.AskSender none
        ⟨"mxc://s/a", some "!r:s", some "@u:s", false⟩ 42
        [(kPrefs "@u:s", Val.prefs ⟨true, false⟩)] =
      process_candidate
        ⟨fun _ => false, fun _ => some "@o:s",
         fun _ => UserRetentionPreference.Delete,
         fun _ _ => none, fun _ _ _ => none⟩
        RetentionPolicy.AskSender none
        ⟨"mxc://s/a", some "!r:s", some "@u:s", false⟩ 42
        [(kPrefs "@u:s", Val.prefs ⟨true, false⟩)] ∧
     sget (process_candidate
        ⟨fun _ => true, fun _ => none, fun _ => UserRetentionPreference.Ask,
         fun _ _ => some "note", fun _ _ _ => some "rid"⟩
        RetentionPolicy.AskSender none
        ⟨"mxc://s/a", some "!r:s", some "@u:s", false⟩ 42
        [(kPrefs "@u:s", Val.prefs ⟨true, false⟩)]) (kMref "mxc://s/a") =
      sget [(kPrefs "@u:s", Val.prefs ⟨true, false⟩)] (kMref "mxc://s/a")) :=
  ⟨rfl, by decide,
   C3_auto_delete_enqueues
     ⟨fun _ => true, fun _ => none, fun _ => UserRetentionPreference.Ask,
      fun _ _ => some "note", fun _ _ _ => some "rid"⟩
     ⟨fun _ => false, fun _ => some "@o:s",
      fun _ => UserRetentionPreference.Delete,
      fun _ _ => none, fun _ _ _ => none⟩
     RetentionPolicy.AskSender none
     ⟨"mxc://s/a", some "!r:s", some "@u:s", false⟩ 42
     [(kPrefs "@u:s", Val.prefs ⟨true, false⟩)] "@u:s" rfl (by decide)⟩

theorem consumeLoop_cons_pend (c t : Nat) (k : Key) (p : PendingUpload)
    (rest : List (Key × Val)) :
    consumeLoop c t ((k, Val.pend p) :: rest) =
      if c ≤ p.upload_ts ∧ p.upload_ts ≤ t then
        ((p.mxc, true, "encrypted.media") :: (consumeLoop c t rest).1,
         k :: (consumeLoop c t rest).2)
      else if p.upload_ts < c then
        ((consumeLoop c t rest).1, k :: (consumeLoop c t rest).2)
      else consumeLoop c t rest := rfl

theorem consumeLoop_found_src (c t : Nat) :
    ∀ (rows : List (Key × Val)) (x : String × Bool × String),
      x ∈ (consumeLoop c t rows).1 →
      ∃ k p, (k, Val.pend p) ∈ rows ∧ c ≤ p.upload_ts ∧ p.upload_ts ≤ t ∧
        x = (p.mxc, true, "encrypted.media") := by
  intro rows
  induction rows with
  | nil => intro x hx; simp [consumeLoop] at hx
  | cons hd tl ih =>
    obtain ⟨k, v⟩ := hd
    intro x hx
    cases v with
    | pend p =>
        rw [consumeLoop_cons_pend] at hx
        by_cases hwin : c ≤ p.upload_ts ∧ p.upload_ts ≤ t
        · rw [if_pos hwin] at hx
          rcases List.mem_cons.mp hx with h1 | h1
          · exact ⟨k, p, List.mem_cons_self _ _, hwin.1, hwin.2, h1⟩
          · obtain ⟨k2, p2, hmem, hw1, hw2, hx2⟩ := ih x h1
            exact ⟨k2, p2, List.mem_cons_of_mem _ hmem, hw1, hw2, hx2⟩
        · rw [if_neg hwin] at hx
          by_cases hold : p.upload_ts < c
          · rw [if_pos hold] at hx
            obtain ⟨k2, p2, hmem, hw1, hw2, hx2⟩ := ih x hx
            exact ⟨k2, p2, List.mem_cons_of_mem _ hmem, hw1, hw2, hx2⟩
          · rw [if_neg hold] at hx
            obtain ⟨k2, p2, hmem, hw1, hw2, hx2⟩ := ih x hx
            exact ⟨k2, p2, List.mem_cons_of_mem _ hmem, hw1, hw2, hx2⟩
    | mref m => simp [consumeLoop] at hx
    | mer m => simp [consumeLoop] at hx
    | cand cd => simp [consumeLoop] at hx
    | prefs pr => simp [consumeLoop] at hx
    | corrupt => simp [consumeLoop] at hx

theorem consumeLoop_del_src (c t : Nat) :
    ∀ (rows : List (Key × Val)) (k : Key),
      k ∈ (consumeLoop c t rows).2 →
      ∃ p, (k, Val.pend p) ∈ rows ∧
        (p.upload_ts < c ∨ (c ≤ p.upload_ts ∧ p.upload_ts ≤ t)) := by
  intro rows
  induction rows with
  | nil => intro k hk; simp [consumeLoop] at hk
  | cons hd tl ih =>
    obtain ⟨k2, v⟩ := hd
    intro k hk
    cases v with
    | pend p =>
        rw [consumeLoop_cons_pend] at hk
        by_cases hwin : c ≤ p.upload_ts ∧ p.upload_ts ≤ t
        · rw [if_pos hwin] at hk
          rcases List.mem_cons.mp hk with h1 | h1
          · subst h1
            exact ⟨p, List.mem_cons_self _ _, Or.inr hwin⟩
          · obtain ⟨p2, hmem, hc⟩ := ih k h1
            exact ⟨p2, List.mem_cons_of_mem _ hmem, hc⟩
        · rw [if_neg hwin] at hk
          by_cases hold : p.upload_ts < c
          · rw [if_pos hold] at hk
            rcases List.mem_cons.mp hk with h1 | h1
            · subst h1
              exact ⟨p, List.mem_cons_self _ _, Or.inl hold⟩
            · obtain ⟨p2, hmem, hc⟩ := ih k h1
              exact ⟨p2, List.mem_cons_of_mem _ hmem, hc⟩
          · rw [if_neg hold] at hk
            obtain ⟨p2, hmem, hc⟩ := ih k hk
            exact ⟨p2, List.mem_cons_of_mem _ hmem, hc⟩
    | mref m => simp [consumeLoop] at hk
    | mer m => simp [consumeLoop] at hk
    | cand cd => simp [consumeLoop] at hk
    | prefs pr => simp [consumeLoop] at hk
    | corrupt => simp [consumeLoop] at hk

theorem consumeLoop_complete (c t : Nat) :
    ∀ (rows : List (Key × Val)),
      (∀ kv ∈ rows, ∃ p, kv.2 = Val.pend p) →
      ∀ (k : Key) (p : PendingUpload), (k, Val.pend p) ∈ rows →
        ((c ≤ p.upload_ts ∧ p.upload_ts ≤ t) →
          ((p.mxc, true, "encrypted.media") ∈ (consumeLoop c t rows).1 ∧
           k ∈ (consumeLoop c t rows).2)) ∧
        (p.upload_ts < c → k ∈ (consumeLoop c t rows).2) := by
  intro rows
  induction rows with
  | nil =>
    intro _ k p hmem
    simp at hmem
  | cons hd tl ih =>
    intro hwt k p hmem
    obtain ⟨k2, v⟩ := hd
    obtain ⟨p2, hv⟩ := hwt (k2, v) (List.mem_cons_self _ _)
    simp only at hv
    subst hv
    have hwt2 : ∀ kv ∈ tl, ∃ q, kv.2 = Val.pend q :=
      fun kv hkv => hwt kv (List.mem_cons_of_mem _ hkv)
    rw [consumeLoop_cons_pend]
    rcases List.mem_cons.mp hmem with h1 | h1
    · have hk : k2 = k := congrArg Prod.fst h1.symm
      have hp : p2 = p := by
        have := congrArg Prod.snd h1.symm
        simp only at this
        exact Val.pend.inj this
      subst hk
      subst hp
      constructor
      · intro hwin
        rw [if_pos hwin]
        exact ⟨List.mem_cons_self _ _, List.mem_cons_self _ _⟩
      · intro hold
        have hwin : ¬(c ≤ p2.upload_ts ∧ p2.upload_ts ≤ t) := by
          intro hcon
          omega
        rw [if_neg hwin, if_pos hold]
        exact List.mem_cons_self _ _
    · have hrec := ih hwt2 k p h1
      constructor
      · intro hwin
        obtain ⟨hf, hd2⟩ := hrec.1 hwin
        by_cases hwin2 : c ≤ p2.upload_ts ∧ p2.upload_ts ≤ t
        · rw [if_pos hwin2]
          exact ⟨List.mem_cons_of_mem _ hf, List.mem_cons_of_mem _ hd2⟩
        · rw [if_neg hwin2]
          by_cases hold2 : p2.upload_ts < c
          · rw [if_pos hold2]
            exact ⟨hf, List.mem_cons_of_mem _ hd2⟩
          · rw [if_neg hold2]
            exact ⟨hf, hd2⟩
      · intro hold
        have hd2 := hrec.2 hold
        by_cases hwin2 : c ≤ p2.upload_ts ∧ p2.upload_ts ≤ t
        · rw [if_pos hwin2]
          exact List.mem_cons_of_mem _ hd2
        · rw [if_neg hwin2]
          by_cases hold2 : p2.upload_ts < c
          · rw [if_pos hold2]
            exact List.mem_cons_of_mem _ hd2
          · rw [if_neg hold2]
            exact hd2

/-- C5: for every user and event timestamp, a pending row of the user
(all the user's pending rows decoding, so the stream never aborts early)
is emitted as `(mxc, local = true, kind = "encrypted.media")` and deleted
when `event_ts − 60 000 ≤ upload_ts ≤ event_ts`; a row older than the
window is deleted without being emitted; and everything emitted stems
from a row under the user's pending prefix whose `upload_ts` lies in the
window. -/
theorem C5_pending_window (s : Store) (u : String) (event_ts : Nat)
    (hwt : ∀ kv ∈ scanPref s (pendingPre u), ∃ p, kv.2 = Val.pend p) :
    (∀ ts2 p, sget s (kPending u ts2) = some (Val.pend p) →
      ((event_ts - windowMs ≤ p.upload_ts ∧ p.upload_ts ≤ event_ts) →
        ((p.mxc, true, "encrypted.media") ∈
            (consume_pending_uploads u event_ts s).1 ∧
         sget (consume_pending_uploads u event_ts s).2 (kPending u ts2) = none)) ∧
      (p.upload_ts < event_ts - windowMs →
        sget (consume_pending_uploads u event_ts s).2 (kPending u ts2) = none)) ∧
    (∀ x ∈ (consume_pending_uploads u event_ts s).1,
      ∃ k p, (k, Val.pend p) ∈ scanPref s (pendingPre u) ∧
        event_ts - windowMs ≤ p.upload_ts ∧ p.upload_ts ≤ event_ts ∧
        x = (p.mxc, true, "encrypted.media")) := by
  have hrun : consume_pending_uploads u event_ts s =
      ((consumeLoop (event_ts - windowMs) event_ts (scanPref s (pendingPre u))).1,
       applyBatch s []
         (consumeLoop (event_ts - windowMs) event_ts
           (scanPref s (pendingPre u))).2) := rfl
  constructor
  · intro ts2 p hrow
    have hmem : (kPending u ts2, Val.pend p) ∈ scanPref s (pendingPre u) := by
      refine (mem_scanPref s _ _).mpr ⟨sget_mem s _ _ hrow, ?_⟩
      exact pendingPre_isPre_kPending u ts2
    have hcomp := consumeLoop_complete (event_ts - windowMs) event_ts
      (scanPref s (pendingPre u)) hwt (kPending u ts2) p hmem
    constructor
    · intro hwin
      obtain ⟨hf, hd⟩ := hcomp.1 hwin
      refine ⟨by rw [hrun]; exact hf, ?_⟩
      rw [hrun]
      simp only []
      rw [sget_applyBatch, if_pos hd]
    · intro hold
      have hd := hcomp.2 hold
      rw [hrun]
      simp only []
      rw [sget_applyBatch, if_pos hd]
  · intro x hx
    rw [hrun] at hx
    exact consumeLoop_found_src (event_ts - windowMs) event_ts
      (scanPref s (pendingPre u)) x hx

theorem witness_store_wt :
    ∀ kv ∈ scanPref
      [(kPending "@u:s" 1000, Val.pend ⟨"mxc://s/a", "@u:s", 1000⟩),
       (kPending "@u:s" 70000, Val.pend ⟨"mxc://s/b", "@u:s", 70000⟩),
       (kPending "@u:s" 95000, Val.pend ⟨"mxc://s/c", "@u:s", 95000⟩)]
      (pendingPre "@u:s"), ∃ p, kv.2 = Val.pend p := by
  intro kv hkv
  have h3 := ((mem_scanPref _ _ kv).mp hkv).1
  rcases List.mem_cons.mp h3 with h4 | h3
  · exact ⟨_, congrArg Prod.snd h4⟩
  rcases List.mem_cons.mp h3 with h4 | h3
  · exact ⟨_, congrArg Prod.snd h4⟩
  rcases List.mem_cons.mp h3 with h4 | h3
  · exact ⟨_, congrArg Prod.snd h4⟩
  · simp at h3

/-- C5 witness: the pending-window theorem evaluated on a store with one
in-window row, one expired row and one future row. -/
theorem C5_pending_window_witness :
    keysNodup [(kPending "@u:s" 1000, Val.pend ⟨"mxc://s/a", "@u:s", 1000⟩),
               (kPending "@u:s" 70000, Val.pend ⟨"mxc://s/b", "@u:s", 70000⟩),
               (kPending "@u:s" 95000, Val.pend ⟨"mxc://s/c", "@u:s", 95000⟩)] ∧
    (∀ kv ∈ scanPref
        [(kPending "@u:s" 1000, Val.pend ⟨"mxc://s/a", "@u:s", 1000⟩),
         (kPending "@u:s" 70000, Val.pend ⟨"mxc://s/b", "@u:s", 70000⟩),
         (kPending "@u:s" 95000, Val.pend ⟨"mxc://s/c", "@u:s", 95000⟩)]
        (pendingPre "@u:s"), ∃ p, kv.2 = Val.pend p) ∧
    (("mxc://s/b", true, "encrypted.media") ∈
      (consume_pending_uploads "@u:s" 80000
        [(kPending "@u:s" 1000, Val.pend ⟨"mxc://s/a", "@u:s", 1000⟩),
         (kPending "@u:s" 70000, Val.pend ⟨"mxc://s/b", "@u:s", 70000⟩),
         (kPending "@u:s" 95000, Val.pend ⟨"mxc://s/c", "@u:s", 95000⟩)]).1) :=
  ⟨by decide, witness_store_wt,
   (((C5_pending_window
      [(kPending "@u:s" 1000, Val.pend ⟨"mxc://s/a", "@u:s", 1000⟩),
       (kPending "@u:s" 70000, Val.pend ⟨"mxc://s/b", "@u:s", 70000⟩),
       (kPending "@u:s" 95000, Val.pend ⟨"mxc://s/c", "@u:s", 95000⟩)]
      "@u:s" 80000 witness_store_wt).1
      70000 ⟨"mxc://s/b", "@u:s", 70000⟩ (by decide)).1 (by decide)).1⟩

/-- C10: a pending row of the user dated strictly after the supplied event
timestamp is neither deleted from the store nor (absent an aliasing
in-window row with the same mxc) returned: only rows inside the 60 s
window and rows older than the window are removed. -/
theorem C10_future_pendings_untouched (s : Store) (u : String) (event_ts : Nat)
    (hnd : keysNodup s) (ts2 : Nat) (p : PendingUpload)
    (hrow : sget s (kPending u ts2) = some (Val.pend p))
    (hfuture : event_ts < p.upload_ts) :
    sget (consume_pending_uploads u event_ts s).2 (kPending u ts2) =
      some (Val.pend p) ∧
    ((¬∃ k q, (k, Val.pend q) ∈ scanPref s (pendingPre u) ∧
        event_ts - windowMs ≤ q.upload_ts ∧ q.upload_ts ≤ event_ts ∧
        q.mxc = p.mxc) →
      (p.mxc, true, "encrypted.media") ∉ (consume_pending_uploads u event_ts s).1) := by
  have hrun : consume_pending_uploads u event_ts s =
      ((consumeLoop (event_ts - windowMs) event_ts (scanPref s (pendingPre u))).1,
       applyBatch s []
         (consumeLoop (event_ts - windowMs) event_ts
           (scanPref s (pendingPre u))).2) := rfl
  constructor
  · have hnodel : kPending u ts2 ∉
        (consumeLoop (event_ts - windowMs) event_ts
          (scanPref s (pendingPre u))).2 := by
      intro hdel
      obtain ⟨p2, hmem2, hc⟩ := consumeLoop_del_src (event_ts - windowMs) event_ts
        (scanPref s (pendingPre u)) (kPending u ts2) hdel
      have hmem2s : (kPending u ts2, Val.pend p2) ∈ s :=
        List.Sublist.mem hmem2 (scanPref_sublist s (pendingPre u))
      have hrows : (kPending u ts2, Val.pend p) ∈ s := sget_mem s _ _ hrow
      have heqr := nodup_key_unique s hnd _ _ hmem2s hrows rfl
      have hp : p2 = p := by
        have := congrArg Prod.snd heqr
        simp only at this
        exact Val.pend.inj this
      subst hp
      rcases hc with hc | hc
      · omega
      · omega
    rw [hrun]
    simp only []
    rw [sget_applyBatch, if_neg hnodel]
    exact hrow
  · intro hnoalias hmem
    rw [hrun] at hmem
    obtain ⟨k, q, hmemq, hw1, hw2, hxq⟩ := consumeLoop_found_src
      (event_ts - windowMs) event_ts (scanPref s (pendingPre u)) _ hmem
    have hq : q.mxc = p.mxc := (congrArg (fun y => y.1) hxq).symm
    exact hnoalias ⟨k, q, hmemq, hw1, hw2, hq⟩

/-- C10 witness: the frame theorem evaluated on the same three-row store,
at the future-dated row. -/
theorem C10_future_pendings_untouched_witness :
    keysNodup [(kPending "@u:s" 1000, Val.pend ⟨"mxc://s/a", "@u:s", 1000⟩),
               (kPending "@u:s" 70000, Val.pend ⟨"mxc://s/b", "@u:s", 70000⟩),
               (kPending "@u:s" 95000, Val.pend ⟨"mxc://s/c", "@u:s", 95000⟩)] ∧
    (sget [(kPending "@u:s" 1000, Val.pend ⟨"mxc://s/a", "@u:s", 1000⟩),
           (kPending "@u:s" 70000, Val.pend ⟨"mxc://s/b", "@u:s", 70000⟩),
           (kPending "@u:s" 95000, Val.pend ⟨"mxc://s/c", "@u:s", 95000⟩)]
        (kPending "@u:s" 95000) =
      some (Val.pend ⟨"mxc://s/c", "@u:s", 95000⟩)) ∧
    (80000 < 95000) ∧
    sget (consume_pending_uploads "@u:s" 80000
        [(kPending "@u:s" 1000, Val.pend ⟨"mxc://s/a", "@u:s", 1000⟩),
         (kPending "@u:s" 70000, Val.pend ⟨"mxc://s/b", "@u:s", 70000⟩),
         (kPending "@u:s" 95000, Val.pend ⟨"mxc://s/c", "@u:s", 95000⟩)]).2
      (kPending "@u:s" 95000) = some (Val.pend ⟨"mxc://s/c", "@u:s", 95000⟩) :=
  ⟨by decide, by decide, by decide,
   (C10_future_pendings_untouched
      [(kPending "@u:s" 1000, Val.pend ⟨"mxc://s/a", "@u:s", 1000⟩),
       (kPending "@u:s" 70000, Val.pend ⟨"mxc://s/b", "@u:s", 70000⟩),
       (kPending "@u:s" 95000, Val.pend ⟨"mxc://s/c", "@u:s", 95000⟩)]
      "@u:s" 80000 (by decide)
      95000 ⟨"mxc://s/c", "@u:s", 95000⟩ (by decide) (by decide)).1⟩

/-- C9 witness: the totality theorem evaluated on a store whose stored
prefs bytes fail to deserialize. -/
theorem C9_get_user_prefs_total_witness :
    (sget [(kPrefs "@u:s", Val.corrupt)] (kPrefs "@u:s") = some Val.corrupt) ∧
    get_user_prefs [(kPrefs "@u:s", Val.corrupt)] "@u:s" = ⟨false, false⟩ :=
  ⟨by decide,
   (C9_get_user_prefs_total [(kPrefs "@u:s", Val.corrupt)] "@u:s").2.1
     Val.corrupt (by decide) (fun p h => Val.noConfusion h)⟩

/-- C6: each of `confirm_candidate`, `cancel_candidate` and
`auto_delete_candidate` rejects a requester different from the recorded
owner — and any requester when no owner is recorded — with a `Forbidden`
error, returning the state unchanged: the candidate row, the `MediaRef`
row and the blob store are all untouched. -/
theorem C6_owner_safety (env : SvcEnv) (mxc requester : String) (st : MState)
    (c : DeletionCandidate)
    (hcand : sget st.store (kQueue mxc) = some (Val.cand c))
    (howner : c.user_id = none ∨ ∃ o, c.user_id = some o ∧ o ≠ requester) :
    confirm_candidate env mxc requester st = (Except.error RErr.Forbidden, st) ∧
    cancel_candidate mxc requester st = (Except.error RErr.Forbidden, st) ∧
    auto_delete_candidate env mxc requester st = (Except.error RErr.Forbidden, st) := by
  rcases howner with hnone | ⟨o, ho, hne⟩
  · refine ⟨?_, ?_, ?_⟩
    · simp only [confirm_candidate, hcand, hnone]
    · simp only [cancel_candidate, hcand, hnone]
    · simp only [auto_delete_candidate, hcand, hnone]
  · refine ⟨?_, ?_, ?_⟩
    · simp only [confirm_candidate, hcand, ho]
      rw [if_pos hne]
    · simp only [cancel_candidate, hcand, ho]
      rw [if_pos hne]
    · simp only [auto_delete_candidate, hcand, ho]
      rw [if_pos hne]

/-- C6 witness: the owner-safety theorem evaluated on a queued candidate
owned by another user. -/
theorem C6_owner_safety_witness :
    (sget (MState.mk
        [(kQueue "mxc://s/a", Val.cand ⟨"mxc://s/a", 0, some "@o:s", true,
          none, none, none, none, false⟩)] []).store (kQueue "mxc://s/a") =
      some (Val.cand ⟨"mxc://s/a", 0, some "@o:s", true,
        none, none, none, none, false⟩)) ∧
    ((⟨"mxc://s/a", 0, some "@o:s", true, none, none, none, none, false⟩ :
        DeletionCandidate).user_id = some "@o:s" ∧ "@o:s" ≠ "@x:s") ∧
    (confirm_candidate ⟨fun _ => [], fun k => k, fun k => k⟩ "mxc://s/a" "@x:s"
        (MState.mk [(kQueue "mxc://s/a", Val.cand ⟨"mxc://s/a", 0, some "@o:s",
          true, none, none, none, none, false⟩)] []) =
      (Except.error RErr.Forbidden,
       MState.mk [(kQueue "mxc://s/a", Val.cand ⟨"mxc://s/a", 0, some "@o:s",
         true, none, none, none, none, false⟩)] []) ∧
     cancel_candidate "mxc://s/a" "@x:s"
        (MState.mk [(kQueue "mxc://s/a", Val.cand ⟨"mxc://s/a", 0, some "@o:s",
          true, none, none, none, none, false⟩)] []) =
      (Except.error RErr.Forbidden,
       MState.mk [(kQueue "mxc://s/a", Val.cand ⟨"mxc://s/a", 0, some "@o:s",
         true, none, none, none, none, false⟩)] []) ∧
     auto_delete_candidate ⟨fun _ => [], fun k => k, fun k => k⟩ "mxc://s/a"
        "@x:s"
        (MState.mk [(kQueue "mxc://s/a", Val.cand ⟨"mxc://s/a", 0, some "@o:s",
          true, none, none, none, none, false⟩)] []) =
      (Except.error RErr.Forbidden,
       MState.mk [(kQueue "mxc://s/a", Val.cand ⟨"mxc://s/a", 0, some "@o:s",
         true, none, none, none, none, false⟩)] [])) :=
  ⟨by decide, ⟨rfl, by decide⟩,
   C6_owner_safety ⟨fun _ => [], fun k => k, fun k => k⟩ "mxc://s/a" "@x:s"
     (MState.mk [(kQueue "mxc://s/a", Val.cand ⟨"mxc://s/a", 0, some "@o:s",
       true, none, none, none, none, false⟩)] [])
     ⟨"mxc://s/a", 0, some "@o:s", true, none, none, none, none, false⟩
     (by decide) (Or.inr ⟨"@o:s", rfl, by decide⟩)⟩

theorem remove_file_absent (fs : FS) (p : String) (h : fsLookup fs p = none) :
    remove_file_tolerant fs p = (0, fs) := by
  unfold remove_file_tolerant
  rw [h]

theorem fsLookup_fsErase_absent (fs : FS) (p q : String)
    (h : fsLookup fs q = none) : fsLookup (fsErase fs p) q = none := by
  induction fs with
  | nil => rfl
  | cons hd tl ih =>
    obtain ⟨a, n⟩ := hd
    unfold fsLookup at h
    by_cases haq : a = q
    · rw [if_pos haq] at h
      exact Option.noConfusion h
    · rw [if_neg haq] at h
      unfold fsErase
      by_cases hap : a = p
      · rw [if_pos hap]
        exact ih h
      · rw [if_neg hap]
        unfold fsLookup
        rw [if_neg haq]
        exact ih h

theorem fsLookup_fsErase_self (fs : FS) (p : String) :
    fsLookup (fsErase fs p) p = none := by
  induction fs with
  | nil => rfl
  | cons hd tl ih =>
    obtain ⟨a, n⟩ := hd
    unfold fsErase
    by_cases hap : a = p
    · rw [if_pos hap]
      exact ih
    · rw [if_neg hap]
      unfold fsLookup
      rw [if_neg hap]
      exact ih

theorem remove_keeps_absent (fs : FS) (p q : String)
    (h : fsLookup fs q = none) :
    fsLookup (remove_file_tolerant fs p).2 q = none := by
  unfold remove_file_tolerant
  cases hl : fsLookup fs p with
  | none => exact h
  | some n => exact fsLookup_fsErase_absent fs p q h

theorem remove_clears (fs : FS) (p : String) :
    fsLookup (remove_file_tolerant fs p).2 p = none := by
  unfold remove_file_tolerant
  cases hl : fsLookup fs p with
  | none => exact hl
  | some n => exact fsLookup_fsErase_self fs p

theorem deleteKeyStep_keeps_absent (env : SvcEnv) (acc : Nat × FS) (k : String)
    (q : String) (h : fsLookup acc.2 q = none) :
    fsLookup (deleteKeyStep env acc k).2 q = none := by
  unfold deleteKeyStep
  exact remove_keeps_absent _ _ q (remove_keeps_absent _ _ q h)

theorem deleteFold_keeps_absent (env : SvcEnv) :
    ∀ (keys : List String) (acc : Nat × FS) (q : String),
      fsLookup acc.2 q = none →
      fsLookup ((keys.foldl (deleteKeyStep env) acc).2) q = none := by
  intro keys
  induction keys with
  | nil => intro acc q h; exact h
  | cons hd tl ih =>
    intro acc q h
    simp only [List.foldl_cons]
    exact ih _ q (deleteKeyStep_keeps_absent env acc hd q h)

theorem deleteFold_clears (env : SvcEnv) :
    ∀ (keys : List String) (acc : Nat × FS), ∀ k ∈ keys,
      fsLookup ((keys.foldl (deleteKeyStep env) acc).2) (env.hashedPath k) = none ∧
      fsLookup ((keys.foldl (deleteKeyStep env) acc).2) (env.legacyPath k) = none := by
  intro keys
  induction keys with
  | nil => intro acc k hk; simp at hk
  | cons hd tl ih =>
    intro acc k hk
    simp only [List.foldl_cons]
    rcases List.mem_cons.mp hk with h1 | h1
    · subst h1
      have hh : fsLookup (deleteKeyStep env acc k).2 (env.hashedPath k) = none := by
        unfold deleteKeyStep
        exact remove_keeps_absent _ _ _ (remove_clears acc.2 (env.hashedPath k))
      have hl : fsLookup (deleteKeyStep env acc k).2 (env.legacyPath k) = none := by
        unfold deleteKeyStep
        exact remove_clears _ _
      exact ⟨deleteFold_keeps_absent env tl _ _ hh,
             deleteFold_keeps_absent env tl _ _ hl⟩
    · exact ih _ k h1

theorem deleteFold_noop (env : SvcEnv) :
    ∀ (keys : List String) (n : Nat) (fs : FS),
      (∀ k ∈ keys, fsLookup fs (env.hashedPath k) = none ∧
        fsLookup fs (env.legacyPath k) = none) →
      keys.foldl (deleteKeyStep env) (n, fs) = (n, fs) := by
  intro keys
  induction keys with
  | nil => intro n fs _; rfl
  | cons hd tl ih =>
    intro n fs habs
    have hh := habs hd (List.mem_cons_self _ _)
    have hstep : deleteKeyStep env (n, fs) hd = (n, fs) := by
      unfold deleteKeyStep
      rw [remove_file_absent fs (env.hashedPath hd) hh.1]
      simp only []
      rw [remove_file_absent fs (env.legacyPath hd) hh.2]
      simp
    simp only [List.foldl_cons, hstep]
    exact ih n fs (fun k hk => habs k (List.mem_cons_of_mem _ hk))

/-- C8: the blob delete subroutine is idempotent with respect to missing
files: for a valid media identifier a first `delete_local_media` run
succeeds, and a second run over the same (unmodified) metadata keys frees
0 bytes, errors not, and leaves the state unchanged; and
`remove_file_tolerant` on an absent path contributes 0 bytes rather than
an error. -/
theorem C8_delete_idempotent (env : SvcEnv) (mxc : String) (st : MState)
    (hparse : (parseMxc mxc).isSome = true) :
    (∃ n st1, delete_local_media env mxc st = (Except.ok n, st1) ∧
      delete_local_media env mxc st1 = (Except.ok 0, st1)) ∧
    (∀ fs p, fsLookup fs p = none → remove_file_tolerant fs p = (0, fs)) := by
  obtain ⟨pr, hpr⟩ := Option.isSome_iff_exists.mp hparse
  have hd : ∀ (st2 : MState), delete_local_media env mxc st2 =
      (Except.ok ((env.metaKeys mxc).foldl (deleteKeyStep env) (0, st2.fs)).1,
       ⟨st2.store, ((env.metaKeys mxc).foldl (deleteKeyStep env) (0, st2.fs)).2⟩) := by
    intro st2
    unfold delete_local_media
    rw [hpr]
  refine ⟨?_, fun fs p h => remove_file_absent fs p h⟩
  refine ⟨((env.metaKeys mxc).foldl (deleteKeyStep env) (0, st.fs)).1,
    ⟨st.store, ((env.metaKeys mxc).foldl (deleteKeyStep env) (0, st.fs)).2⟩,
    hd st, ?_⟩
  rw [hd ⟨st.store, ((env.metaKeys mxc).foldl (deleteKeyStep env) (0, st.fs)).2⟩]
  have habs : ∀ k ∈ env.metaKeys mxc,
      fsLookup ((env.metaKeys mxc).foldl (deleteKeyStep env) (0, st.fs)).2
        (env.hashedPath k) = none ∧
      fsLookup ((env.metaKeys mxc).foldl (deleteKeyStep env) (0, st.fs)).2
        (env.legacyPath k) = none :=
    fun k hk => deleteFold_clears env (env.metaKeys mxc) (0, st.fs) k hk
  rw [deleteFold_noop env (env.metaKeys mxc) 0
    ((env.metaKeys mxc).foldl (deleteKeyStep env) (0, st.fs)).2 habs]

/-- C8 witness: the idempotence theorem evaluated on a store holding two
storage keys with three of the four files present. -/
theorem C8_delete_idempotent_witness :
    ((parseMxc "mxc://srv/A").isSome = true) ∧
    ((∃ n st1, delete_local_media
        ⟨fun _ => ["K1", "K2"], fun k => "h" ++ k, fun k => "b" ++ k⟩
        "mxc://srv/A" (MState.mk [] [("hK1", 10), ("bK1", 3), ("hK2", 7)]) =
        (Except.ok n, st1) ∧
      delete_local_media
        ⟨fun _ => ["K1", "K2"], fun k => "h" ++ k, fun k => "b" ++ k⟩
        "mxc://srv/A" st1 = (Except.ok 0, st1)) ∧
     (∀ fs p, fsLookup fs p = none → remove_file_tolerant fs p = (0, fs))) :=
  ⟨by decide,
   C8_delete_idempotent
     ⟨fun _ => ["K1", "K2"], fun k => "h" ++ k, fun k => "b" ++ k⟩
     "mxc://srv/A" (MState.mk [] [("hK1", 10), ("bK1", 3), ("hK2", 7)])
     (by decide)⟩

end Retention
